import Mathlib

/-!
# checkpassword: binary search over a sorted, line-oriented password list

A shallow embedding of `main.go` (functions `entryAt`, `search`, `checkPasswords`)
together with the parts of the Go standard library they call
(`bytes.Index`, `bytes.Split`, `bytes.TrimSpace`, `bytes.Compare`, `sort.Search`,
`strconv.Atoi`) and of `golang.org/x/exp/mmap` (`ReaderAt.ReadAt`).

Conventions.
* A byte is a `Nat` (values below 256), a byte slice is a `List Nat`; Go's `nil`
  slice is `[]`.
* A Go `error` is an `Option Error`, `none` being `nil`.
* A Go run-time panic (slice bounds out of range, index out of range) is the
  outcome `Outcome.panic`; a normal return is `Outcome.ret`.
* Offsets are Go `int` values (64 bit); `sort.Search` computes its midpoint in
  `uint`, which is modelled with an explicit `% 2 ^ 64`.
-/

namespace CheckPassword

/-! ## Errors, panics and outcomes -/

/-- Go `error` values that the program can see. -/
inductive Error where
  /-- The value `io.EOF`. -/
  | eof
  /-- The error of `mmap.ReaderAt.ReadAt` for an offset outside the mapping. -/
  | invalidOffset
  /-- Any other failure of the operating system or of an `io.ReaderAt`. -/
  | io (code : Nat)
  /-- The error `strconv.ErrSyntax` wrapped by `strconv.Atoi`. -/
  | badNumber
  /-- The error `strconv.ErrRange` wrapped by `strconv.Atoi`. -/
  | outOfRange
  deriving DecidableEq, Repr

/-- The two run-time panics that slicing and indexing can raise. -/
inductive Panic where
  /-- The panic "slice bounds out of range". -/
  | sliceBounds
  /-- The panic "index out of range". -/
  | indexRange
  deriving DecidableEq, Repr

/-- The result of running a Go function: it returns a value or it panics. -/
inductive Outcome (α : Type) where
  | ret (a : α)
  | panic (p : Panic)
  deriving DecidableEq, Repr

deriving instance DecidableEq for Except

/-- Sequencing of Go statements: a panic aborts what follows. -/
def Outcome.bind {α β : Type} (x : Outcome α) (f : α → Outcome β) : Outcome β :=
  match x with
  | .ret a => f a
  | .panic p => .panic p

instance : Monad Outcome where
  pure := Outcome.ret
  bind := Outcome.bind

/-! ## Byte-slice primitives of the Go standard library -/

/-- The package variable `newline = []byte("\n")`, a one-byte separator. -/
def newline : Nat := 10

/-- The package variable `colon = []byte(":")`, a one-byte separator. -/
def colon : Nat := 58

/-- The constant `sha1.Size`. -/
def sha1Size : Nat := 20

/-- The function `hex.EncodedLen`. -/
def hexEncodedLen (n : Nat) : Nat := n * 2

/-- The bytes of an ASCII string literal. -/
def asciiBytes (s : String) : List Nat := s.toList.map Char.toNat

/-- The call `bytes.Index(s, sep)` for a one-byte separator: the index of the first
occurrence of the byte, or `-1` when it does not occur. -/
def bytesIndex (s : List Nat) (sep : Nat) : Int :=
  if s.indexOf sep < s.length then (s.indexOf sep : Int) else -1

/-- The slice expression `s[a:]`; it panics unless `0 ≤ a ≤ len(s)`. -/
def sliceFrom (s : List Nat) (a : Int) : Outcome (List Nat) :=
  if 0 ≤ a ∧ a ≤ (s.length : Int) then .ret (s.drop a.toNat) else .panic .sliceBounds

/-- The slice expression `s[:b]` on a slice whose capacity equals its length as far
as `b` can reach; it panics unless `0 ≤ b ≤ len(s)`. -/
def sliceTo (s : List Nat) (b : Int) : Outcome (List Nat) :=
  if 0 ≤ b ∧ b ≤ (s.length : Int) then .ret (s.take b.toNat) else .panic .sliceBounds

/-- The index expression `pieces[k]`; it panics when `k` is out of range. -/
def indexAt (pieces : List (List Nat)) (k : Nat) : Outcome (List Nat) :=
  match pieces.get? k with
  | some p => .ret p
  | none => .panic .indexRange

/-- The call `bytes.Split(s, sep)` for a one-byte separator. -/
def bytesSplit (s : List Nat) (sep : Nat) : List (List Nat) := s.splitOn sep

/-- The call `bytes.Compare(a, b)`: lexicographic comparison, `-1`, `0` or `1`. -/
def bytesCompare : List Nat → List Nat → Int
  | [], [] => 0
  | [], _ :: _ => -1
  | _ :: _, [] => 1
  | a :: as, b :: bs =>
    if a < b then -1 else if b < a then 1 else bytesCompare as bs

/-- The call `bytes.Equal(a, b)`. -/
def bytesEqual (a b : List Nat) : Bool := decide (a = b)

/-! ## `bytes.TrimSpace`

`bytes.TrimSpace(s)` returns the bytes of `bytes.TrimFunc(s, unicode.IsSpace)`; its
ASCII loops are a fast path of it. The definitions below follow `TrimFunc`, with
the UTF-8 decoder of `unicode/utf8`. -/

/-- The constant `utf8.RuneError`. -/
def runeError : Nat := 0xFFFD

/-- The constant `utf8.RuneSelf`: bytes below it are single-byte runes. -/
def runeSelf : Nat := 0x80

/-- The function `unicode.IsSpace` (the `White_Space` property). -/
def isSpace (r : Nat) : Bool :=
  (9 ≤ r && r ≤ 13) || r == 0x20 || r == 0x85 || r == 0xA0 || r == 0x1680 ||
  (0x2000 ≤ r && r ≤ 0x200A) || r == 0x2028 || r == 0x2029 || r == 0x202F ||
  r == 0x205F || r == 0x3000

/-- The table `first` of `unicode/utf8` on lead bytes of multi-byte sequences:
the length of the sequence and the accepted range of its second byte. -/
def utf8Lead (b : Nat) : Option (Nat × Nat × Nat) :=
  if 0xC2 ≤ b ∧ b ≤ 0xDF then some (2, 0x80, 0xBF)
  else if b = 0xE0 then some (3, 0xA0, 0xBF)
  else if (0xE1 ≤ b ∧ b ≤ 0xEC) ∨ b = 0xEE ∨ b = 0xEF then some (3, 0x80, 0xBF)
  else if b = 0xED then some (3, 0x80, 0x9F)
  else if b = 0xF0 then some (4, 0x90, 0xBF)
  else if 0xF1 ≤ b ∧ b ≤ 0xF3 then some (4, 0x80, 0xBF)
  else if b = 0xF4 then some (4, 0x80, 0x8F)
  else none

/-- The function `utf8.DecodeRune`: the first rune of `p` and its width in bytes. -/
def decodeRune (p : List Nat) : Nat × Nat :=
  match p with
  | [] => (runeError, 0)
  | p0 :: rest =>
    if p0 < runeSelf then (p0, 1)
    else
      match utf8Lead p0 with
      | none => (runeError, 1)
      | some (sz, lo, hi) =>
        if p.length < sz then (runeError, 1)
        else
          let b1 := rest.getD 0 0
          if b1 < lo ∨ hi < b1 then (runeError, 1)
          else if sz ≤ 2 then ((p0 % 32) * 64 + b1 % 64, 2)
          else
            let b2 := rest.getD 1 0
            if b2 < 0x80 ∨ 0xBF < b2 then (runeError, 1)
            else if sz ≤ 3 then ((p0 % 16) * 4096 + (b1 % 64) * 64 + b2 % 64, 3)
            else
              let b3 := rest.getD 2 0
              if b3 < 0x80 ∨ 0xBF < b3 then (runeError, 1)
              else ((p0 % 8) * 262144 + (b1 % 64) * 4096 + (b2 % 64) * 64 + b3 % 64, 4)

/-- The function `utf8.RuneStart`: the byte is not a continuation byte. -/
def runeStart (b : Nat) : Bool := b / 64 % 4 != 2

/-- The backward loop of `utf8.DecodeLastRune` looking for the start of the last
rune, from index `start` down to `lim`. -/
def scanRuneStart (p : List Nat) (lim : Int) : Nat → Int → Int
  | 0, start => start
  | fuel + 1, start =>
    if lim ≤ start then
      if runeStart (p.getD start.toNat 0) then start
      else scanRuneStart p lim fuel (start - 1)
    else start

/-- The function `utf8.DecodeLastRune`: the last rune of `p` and its width. -/
def decodeLastRune (p : List Nat) : Nat × Nat :=
  if p.length = 0 then (runeError, 0)
  else
    let r := p.getD (p.length - 1) 0
    if r < runeSelf then (r, 1)
    else
      let lim : Int := max 0 ((p.length : Int) - 4)
      let start := (max 0 (scanRuneStart p lim 5 ((p.length : Int) - 2))).toNat
      let d := decodeRune (p.drop start)
      if start + d.2 ≠ p.length then (runeError, 1) else d

/-- The call `indexFunc(s, unicode.IsSpace, false)` of package `bytes`: the index of
the first rune that is not a space, or `-1`. -/
def indexNotSpace (s : List Nat) : Nat → Nat → Int
  | 0, _ => -1
  | fuel + 1, start =>
    match s.drop start with
    | [] => -1
    | b :: rest =>
      let d := if runeSelf ≤ b then decodeRune (b :: rest) else (b, 1)
      if isSpace d.1 then indexNotSpace s fuel (start + d.2) else (start : Int)

/-- The call `lastIndexFunc(s, unicode.IsSpace, false)` of package `bytes`: the
index of the last rune that is not a space, or `-1`. -/
def lastIndexNotSpace (s : List Nat) : Nat → Nat → Int
  | 0, _ => -1
  | fuel + 1, i =>
    if 0 < i then
      let b := s.getD (i - 1) 0
      let d := if runeSelf ≤ b then decodeLastRune (s.take i) else (b, 1)
      if isSpace d.1 then lastIndexNotSpace s fuel (i - d.2) else ((i - d.2 : Nat) : Int)
    else -1

/-- The call `bytes.TrimLeftFunc(s, unicode.IsSpace)`. -/
def trimLeftSpace (s : List Nat) : List Nat :=
  let i := indexNotSpace s s.length 0
  if i = -1 then [] else s.drop i.toNat

/-- The call `bytes.TrimRightFunc(s, unicode.IsSpace)`. -/
def trimRightSpace (s : List Nat) : List Nat :=
  let i := lastIndexNotSpace s s.length s.length
  if 0 ≤ i ∧ runeSelf ≤ s.getD i.toNat 0 then
    s.take (i.toNat + (decodeRune (s.drop i.toNat)).2)
  else s.take (i + 1).toNat

/-- The call `bytes.TrimSpace(s)`. -/
def trimSpace (s : List Nat) : List Nat := trimRightSpace (trimLeftSpace s)

/-! ## `strconv.Atoi` -/

/-- The digit loop of `strconv.ParseUint(s, 10, 64)`: a byte that is not a decimal
digit is a syntax error, a value that leaves 64 bits is a range error. -/
def parseUintLoop : List Nat → Nat → Except Error Nat
  | [], n => .ok n
  | c :: cs, n =>
    if 48 ≤ c ∧ c ≤ 57 then
      if 2 ^ 64 ≤ n * 10 + (c - 48) then .error .outOfRange
      else parseUintLoop cs (n * 10 + (c - 48))
    else .error .badNumber

/-- The call `strconv.Atoi(s)` for a 64-bit `int`: an optional sign, then one or more
decimal digits, the value within `[-2^63, 2^63 - 1]`. -/
def Atoi (s : List Nat) : Except Error Int :=
  match s with
  | [] => .error .badNumber
  | c :: cs =>
    let digits := if c = 43 ∨ c = 45 then cs else c :: cs
    if digits = [] then .error .badNumber
    else
      match parseUintLoop digits 0 with
      | .error .badNumber => .error .badNumber
      | .error _ => .error .outOfRange
      | .ok un =>
        if c = 45 then
          if 2 ^ 63 < un then .error .outOfRange else .ok (-(un : Int))
        else
          if 2 ^ 63 ≤ un then .error .outOfRange else .ok (un : Int)

/-! ## The backing store -/

/-- An `io.ReaderAt`: `r cap off` is the outcome of `r.ReadAt(p, off)` for a slice
`p` of length `cap`, namely the bytes copied to the front of `p` and the error. -/
abbrev ReaderAt := Nat → Int → List Nat × Option Error

/-- The method `ReadAt` of `mmap.ReaderAt` over the mapped bytes `data` of an open
file: it copies `data[off:]` into `p` and reports `io.EOF` when that does not fill
`p`; an offset outside `0 ≤ off ≤ len(data)` is an error. An empty file is mapped as
an empty slice that is not `nil`, so that reading it is a short read as well. -/
def mmapReaderAt (data : List Nat) : ReaderAt := fun cap off =>
  if off < 0 ∨ (data.length : Int) < off then ([], some .invalidOffset)
  else
    let bs := (data.drop off.toNat).take cap
    (bs, if bs.length < cap then some .eof else none)

/-- The contents of the buffer `p` after `n = len(bs)` bytes were copied into it. -/
def copyInto (p bs : List Nat) : List Nat := (bs ++ p.drop bs.length).take p.length

/-! ## `entryAt` -/

/-- Lines 132 to 140 of `entryAt`, on the buffer already truncated to the bytes
read: skip a leading fragment when the first colon is not at the key width, cut at
the first newline, split on the colon. -/
def entryOfWindow (buf : List Nat) : Outcome (List Nat × List Nat × Option Error) :=
  (if bytesIndex buf colon ≠ (hexEncodedLen sha1Size : Int) then
      sliceFrom buf (bytesIndex buf newline + 1)
    else Outcome.ret buf) >>= fun line =>
  sliceTo line (bytesIndex line newline) >>= fun line =>
  let pieces := bytesSplit line colon
  indexAt pieces 0 >>= fun hash =>
  indexAt pieces 1 >>= fun count =>
  Outcome.ret (hash, trimSpace count, none)

/-- The function `entryAt(r, i, buf)`: `(hash, count, err)`, or a panic. -/
def entryAt (r : ReaderAt) (i : Int) (buf : List Nat) :
    Outcome (List Nat × List Nat × Option Error) :=
  let rd := r buf.length i
  if rd.2 ≠ none ∧ rd.2 ≠ some Error.eof then .ret ([], [], rd.2)
  else sliceTo (copyInto buf rd.1) rd.1.length >>= fun buf => entryOfWindow buf

/-- The contents of the caller's buffer after a call `entryAt(r, i, buf)`. -/
def bufferAfter (r : ReaderAt) (i : Int) (buf : List Nat) : List Nat :=
  copyInto buf (r buf.length i).1

/-! ## `sort.Search` and `search` -/

/-- The loop of `sort.Search(n, f)` from the state `i, j`, for a closure `f` that
reads and writes captured variables of type `σ` and may panic. Each iteration
shrinks `j - i`, so `fuel = j - i` iterations always suffice. -/
def searchLoop {σ : Type} (f : σ → Nat → Outcome (Bool × σ)) :
    Nat → Nat → Nat → σ → Outcome (Nat × σ)
  | 0, i, _, s => .ret (i, s)
  | fuel + 1, i, j, s =>
    if i < j then
      let h := (i + j) % 2 ^ 64 / 2
      match f s h with
      | .panic p => .panic p
      | .ret (b, s1) =>
        if !b then searchLoop f fuel (h + 1) j s1 else searchLoop f fuel i h s1
    else .ret (i, s)

/-- The function `sort.Search(n, f)`. -/
def sortSearch {σ : Type} (n : Nat) (f : σ → Nat → Outcome (Bool × σ)) (s : σ) :
    Outcome (Nat × σ) :=
  searchLoop f n 0 n s

/-- The captured variables of the closure in `search`: `reterr` and the contents of
the shared buffer. -/
structure SearchState where
  reterr : Option Error
  buf : List Nat
  deriving DecidableEq, Repr

/-- The closure passed to `sort.Search` by `search`. -/
def searchProbe (r : ReaderAt) (query : List Nat) (s : SearchState) (i : Nat) :
    Outcome (Bool × SearchState) :=
  match entryAt r (i : Int) s.buf with
  | .panic p => .panic p
  | .ret (hash, _, err) =>
    .ret (decide (bytesCompare query hash ≤ 0),
      { reterr := if err ≠ none then err else s.reterr, buf := bufferAfter r (i : Int) s.buf })

/-- The run of `search(size, r, buf, query)`: the offset found and the final values of
the captured variables, `reterr` and the contents left in the shared buffer. -/
def searchRun (size : Nat) (r : ReaderAt) (buf query : List Nat) : Outcome (Nat × SearchState) :=
  sortSearch size (searchProbe r query) { reterr := none, buf := buf }

/-- The function `search(size, r, buf, query)`: the pair `(offset, reterr)` it returns,
`reterr` being read once `sort.Search` has returned. -/
def search (size : Nat) (r : ReaderAt) (buf query : List Nat) : Outcome (Nat × Option Error) :=
  searchRun size r buf query >>= fun x => Outcome.ret (x.1, x.2.reterr)

/-- The calls that the loop of `sort.Search(n, f)` makes to the closure `f` from the
state `i, j`, in order: the argument of each call and the values of the captured
variables before it. A call that panics is the last one. -/
def searchCalls {σ : Type} (f : σ → Nat → Outcome (Bool × σ)) :
    Nat → Nat → Nat → σ → List (Nat × σ)
  | 0, _, _, _ => []
  | fuel + 1, i, j, s =>
    if i < j then
      let h := (i + j) % 2 ^ 64 / 2
      (h, s) ::
        match f s h with
        | .panic _ => []
        | .ret (b, s1) =>
          if !b then searchCalls f fuel (h + 1) j s1 else searchCalls f fuel i h s1
    else []

/-- The probes of `search(size, r, buf, query)`, in order: the offset of each call of
`entryAt` and the captured variables (so the contents of the buffer) before it. -/
def searchProbes (size : Nat) (r : ReaderAt) (buf query : List Nat) :
    List (Nat × SearchState) :=
  searchCalls (searchProbe r query) size 0 size { reterr := none, buf := buf }

/-- The offsets that `search(size, r, buf, query)` probes, in order. -/
def probeOffsets (size : Nat) (r : ReaderAt) (buf query : List Nat) : List Nat :=
  (searchProbes size r buf query).map Prod.fst

/-! ## `checkPasswords` -/

/-- The result map `map[string]int`, as an association list. -/
abbrev ResultMap := List (String × Int)

/-- The assignment `m[pw] = v`. -/
def ResultMap.set (m : ResultMap) (pw : String) (v : Int) : ResultMap :=
  (pw, v) :: m.filter (fun e => e.1 ≠ pw)

/-- The loop `for h, pw := range checkHashes` of `checkPasswords`, over the entries of
`checkHashes` in the order in which the range statement yields them. It returns
the pair that `checkPasswords` returns from inside the loop, or the map built. -/
def lookupLoop (size : Nat) (r : ReaderAt) :
    List (List Nat × String) → List Nat → ResultMap → Outcome (Except Error ResultMap)
  | [], _, m => .ret (.ok m)
  | (h, pw) :: rest, buf, m =>
    match searchRun size r buf h with
    | .panic p => .panic p
    | .ret (i, st) =>
      match st.reterr with
      | some e => .ret (.error e)
      | none =>
        match entryAt r (i : Int) st.buf with
        | .panic p => .panic p
        | .ret (_, _, some e) => .ret (.error e)
        | .ret (entryHash, count, none) =>
          let buf1 := bufferAfter r (i : Int) st.buf
          if bytesEqual entryHash h then
            match Atoi count with
            | .error e => .ret (.error e)
            | .ok v => lookupLoop size r rest buf1 (m.set pw v)
          else lookupLoop size r rest buf1 m

/-- The array `var buf [128]byte`, zero-initialised. -/
def buf128 : List Nat := List.replicate 128 0

/-- The function `checkPasswords` after the hashing of the passwords: `statErr` and
`openErr` are the errors of `os.Stat` and `mmap.Open`, `data` the bytes of the file
(whose length is `fi.Size()`), `closeErr` the error of `readerAt.Close()`, and
`checkHashes` the entries of the map from hex hash to password. The result is the pair
`(map, error)`, the map being `none` for Go's `nil`. -/
def checkPasswords (statErr openErr : Option Error) (data : List Nat)
    (closeErr : Option Error) (checkHashes : List (List Nat × String)) :
    Outcome (Option ResultMap × Option Error) :=
  match statErr with
  | some e => .ret (none, some e)
  | none =>
    match openErr with
    | some e => .ret (none, some e)
    | none =>
      match lookupLoop data.length (mmapReaderAt data) checkHashes buf128 [] with
      | .panic p => .panic p
      | .ret (.error e) => .ret (none, some e)
      | .ret (.ok m) => .ret (some m, closeErr)

/-! ## Well-formed stores -/

/-- One record of the store: the key and the count field. -/
structure Rec where
  key : List Nat
  count : List Nat
  deriving DecidableEq, Repr

/-- The line of a record: `key:count\n`. -/
def Rec.encode (r : Rec) : List Nat := r.key ++ colon :: (r.count ++ [newline])

/-- The bytes of a store holding the records `rs`. -/
def storeBytes (rs : List Rec) : List Nat := (rs.map Rec.encode).flatten

/-- The start offset of record number `k`. -/
def startOff (rs : List Rec) (k : Nat) : Nat := (storeBytes (rs.take k)).length

/-- A record is well formed when its key has the 40 bytes of a hex-encoded SHA1
digest and neither key nor count field holds a colon or a newline. Upper-case hex
keys and decimal counts, also surrounded by blanks or a carriage return, are of
this kind. -/
def Rec.WellFormed (r : Rec) : Prop :=
  r.key.length = 40 ∧ colon ∉ r.key ∧ newline ∉ r.key ∧ colon ∉ r.count ∧ newline ∉ r.count

instance (r : Rec) : Decidable r.WellFormed := by
  unfold Rec.WellFormed; infer_instance

/-- Every record of the store is well formed. -/
def WellFormed (rs : List Rec) : Prop := ∀ r ∈ rs, r.WellFormed

instance (rs : List Rec) : Decidable (WellFormed rs) := by
  unfold WellFormed; infer_instance

/-- The keys are strictly ascending as raw bytes. -/
def Sorted (rs : List Rec) : Prop :=
  rs.Pairwise (fun a b => bytesCompare a.key b.key < 0)

instance (rs : List Rec) : Decidable (Sorted rs) := by
  unfold Sorted; infer_instance

/-- Every record line has at most `m` bytes. -/
def MaxLine (m : Nat) (rs : List Rec) : Prop := ∀ r ∈ rs, r.encode.length ≤ m

instance (m : Nat) (rs : List Rec) : Decidable (MaxLine m rs) := by
  unfold MaxLine; infer_instance

/-! ## Decimal counts, as the specification words them -/

/-- A byte is a decimal digit. -/
def isDigit (c : Nat) : Bool := 48 ≤ c && c ≤ 57

/-- The number that a string of decimal digits denotes. -/
def digitsValue (ds : List Nat) : Nat := ds.foldl (fun n c => n * 10 + (c - 48)) 0

/-- The integer that a count field denotes when it is an optionally signed decimal
integer (an optional `+` or `-`, then one or more digits) within the range of a
64-bit `int`; `none` for any other field. -/
def signedDecimal (s : List Nat) : Option Int :=
  let ds := if s.head? = some 43 ∨ s.head? = some 45 then s.tail else s
  if ds ≠ [] ∧ ds.all isDigit = true then
    let v : Int := if s.head? = some 45 then -(digitsValue ds : Int) else (digitsValue ds : Int)
    if -(2 : Int) ^ 63 ≤ v ∧ v < (2 : Int) ^ 63 then some v else none
  else none

/-- A count field is an unsigned decimal integer: one or more digits. -/
def unsignedDecimal (s : List Nat) : Bool := s ≠ [] && s.all isDigit

/-! ## Trimmed count fields, as the specification words them -/

/-- A byte is one of the six ASCII white space characters: tab, line feed, vertical tab,
form feed, carriage return, space. -/
def asciiSpace (b : Nat) : Bool := b == 9 || b == 10 || b == 11 || b == 12 || b == 13 || b == 32

/-- A count field of ASCII bytes with its surrounding white space trimmed: the leading
and the trailing white space bytes are dropped, what lies between is kept. -/
def trimBlanks (s : List Nat) : List Nat := (s.dropWhile asciiSpace).rdropWhile asciiSpace

/-! ## Fixtures -/

/-- The first key of the example in the package comment. -/
def key5A : List Nat := asciiBytes "000000005AD76BD555C1D6D771DE417A4B87E4B4"

/-- The second key of the example in the package comment. -/
def keyA8 : List Nat := asciiBytes "00000000A8DAE4228F821FB418F59826079BF368"

/-- The third key of the example in the package comment. -/
def keyDD : List Nat := asciiBytes "00000000DD7F2A1C68A35673713783CA390C9E93"

/-- A key above every key of the example. -/
def keyFF : List Nat := asciiBytes "FFFFFFFFFFFFFFFFFFFFFFFFFFFFFFFFFFFFFFFF"

/-- The hex-encoded SHA1 digest of the password `password`. -/
def keyPassword : List Nat := asciiBytes "5BAA61E4C9B93F3F0682250B6CF8331B7EE68FD8"

/-- The three records of the example in the package comment. -/
def fixtureRecs : List Rec :=
  [ { key := key5A, count := asciiBytes "4" },
    { key := keyA8, count := asciiBytes "2" },
    { key := keyDD, count := asciiBytes "630" } ]

/-- The bytes of the three-record fixture. -/
def fixture : List Nat :=
  asciiBytes ("000000005AD76BD555C1D6D771DE417A4B87E4B4:4\n" ++
    "00000000A8DAE4228F821FB418F59826079BF368:2\n" ++
    "00000000DD7F2A1C68A35673713783CA390C9E93:630\n")

/-- A store with one record. -/
def oneRecord : List Rec := [ { key := key5A, count := asciiBytes "4" } ]

/-- A store with two records, the second line longer than the first. -/
def twoRecords : List Rec :=
  [ { key := key5A, count := asciiBytes "4" }, { key := keyA8, count := asciiBytes "630000" } ]

/-- The three-record fixture without the newline of its last line. -/
def fixtureCut : List Nat :=
  storeBytes (fixtureRecs.take 2) ++ (keyDD ++ colon :: asciiBytes "630")

/-- A two-record store whose first count field carries a minus sign. -/
def signedStore : List Nat :=
  asciiBytes ("000000005AD76BD555C1D6D771DE417A4B87E4B4:-3\n" ++
    "00000000A8DAE4228F821FB418F59826079BF368:2\n")

/-- The key of forty zeros, below every key of the example. -/
def key00 : List Nat := asciiBytes "0000000000000000000000000000000000000000"

/-- A reader every read of which fails with an error other than `io.EOF`. -/
def failingReader : ReaderAt := fun _ _ => ([], some (Error.io 5))

/-- The three records of the example with the lines ending in carriage return and line
feed: the carriage return is the last byte of each count field. -/
def crlfRecs : List Rec :=
  [ { key := key5A, count := asciiBytes "4\r" },
    { key := keyA8, count := asciiBytes " 2 \r" },
    { key := keyDD, count := asciiBytes "630\r" } ]

/-- A reader over the three-record fixture whose read at offset 65 fails. -/
def flakyReader65 : ReaderAt := fun cap off =>
  if off = 65 then ([], some (Error.io 5)) else mmapReaderAt fixture cap off

/-- A reader over the three-record fixture whose read at offset 32 fails. -/
def flakyReader : ReaderAt := fun cap off =>
  if off = 32 then ([], some (Error.io 5)) else mmapReaderAt fixture cap off

/-- A two-record store whose first count is one more than the largest 64-bit `int`. -/
def bigStore : List Nat :=
  asciiBytes ("000000005AD76BD555C1D6D771DE417A4B87E4B4:9223372036854775808\n" ++
    "00000000A8DAE4228F821FB418F59826079BF368:2\n")

end CheckPassword

namespace CheckPassword

/-! ## Lemmas on outcomes and byte-slice primitives -/

@[simp] theorem Outcome.ret_bind {α β : Type} (a : α) (f : α → Outcome β) :
    (Outcome.ret a >>= f) = f a := rfl

@[simp] theorem Outcome.panic_bind {α β : Type} (p : Panic) (f : α → Outcome β) :
    (Outcome.panic p >>= f) = Outcome.panic p := rfl

@[simp] theorem Outcome.pure_eq {α : Type} (a : α) : (pure a : Outcome α) = Outcome.ret a := rfl

theorem bytesIndex_of_not_mem {s : List Nat} {c : Nat} (h : c ∉ s) : bytesIndex s c = -1 := by
  unfold bytesIndex
  rw [if_neg]
  rw [List.indexOf_lt_length]
  exact h

theorem bytesIndex_append_cons {a : List Nat} {c : Nat} (t : List Nat) (h : c ∉ a) :
    bytesIndex (a ++ c :: t) c = (a.length : Int) := by
  unfold bytesIndex
  have h1 : List.indexOf c (a ++ c :: t) = a.length := by
    rw [List.indexOf_append_of_not_mem h, List.indexOf_cons_self]; rfl
  rw [h1, if_pos]
  simp

theorem bytesIndex_nonneg_iff {s : List Nat} {c : Nat} : 0 ≤ bytesIndex s c ↔ c ∈ s := by
  unfold bytesIndex
  by_cases h : c ∈ s
  · rw [if_pos (List.indexOf_lt_length.2 h)]; simp [h]
  · rw [if_neg (by rw [List.indexOf_lt_length]; exact h)]; simp [h]

theorem bytesIndex_getElem? {s : List Nat} {c : Nat} {n : Nat} (h : bytesIndex s c = (n : Int)) :
    s[n]? = some c := by
  unfold bytesIndex at h
  by_cases hm : List.indexOf c s < s.length
  · rw [if_pos hm] at h
    have hn : List.indexOf c s = n := by exact_mod_cast h
    rw [← hn]
    have := List.indexOf_get (a := c) (l := s) hm
    rw [List.getElem?_eq_getElem hm]
    simp
  · rw [if_neg hm] at h
    omega

theorem sliceTo_ret {s : List Nat} {n : Nat} (h : n ≤ s.length) :
    sliceTo s (n : Int) = .ret (s.take n) := by
  unfold sliceTo
  rw [if_pos ⟨by omega, by exact_mod_cast h⟩]
  simp

theorem sliceFrom_ret {s : List Nat} {n : Nat} (h : n ≤ s.length) :
    sliceFrom s (n : Int) = .ret (s.drop n) := by
  unfold sliceFrom
  rw [if_pos ⟨by omega, by exact_mod_cast h⟩]
  simp

theorem sliceTo_neg_one (s : List Nat) : sliceTo s (-1) = .panic .sliceBounds := by
  unfold sliceTo
  rw [if_neg]
  omega

theorem bytesSplit_record {key count : List Nat} (hk : colon ∉ key) (hc : colon ∉ count) :
    bytesSplit (key ++ colon :: count) colon = [key, count] := by
  unfold bytesSplit List.splitOn
  rw [List.splitOnP_first _ _ _ colon (by simp), List.splitOnP_eq_single]
  · intro x hx; simp; rintro rfl; exact hc hx
  · intro x hx; simp; rintro rfl; exact hk hx

theorem bytesSplit_no_colon {line : List Nat} (h : colon ∉ line) :
    bytesSplit line colon = [line] := by
  unfold bytesSplit List.splitOn
  rw [List.splitOnP_eq_single]
  intro x hx; simp; rintro rfl; exact h hx

/-! ## What `entryAt` makes of a window -/

theorem entryOfWindow_line {buf key count : List Nat} (line : List Nat) (hk : colon ∉ key)
    (hc : colon ∉ count)
    (h : (if bytesIndex buf colon ≠ (hexEncodedLen sha1Size : Int) then
        sliceFrom buf (bytesIndex buf newline + 1) else Outcome.ret buf) = Outcome.ret line)
    (hl : sliceTo line (bytesIndex line newline) = .ret (key ++ colon :: count)) :
    entryOfWindow buf = .ret (key, trimSpace count, none) := by
  unfold entryOfWindow
  rw [h]
  simp only [Outcome.ret_bind, hl, bytesSplit_record hk hc]
  rfl

/-- A window that starts with a whole record line yields that record. -/
theorem entryOfWindow_at_start {key count : List Nat} (t : List Nat) (hlen : key.length = 40)
    (hk : colon ∉ key) (hkn : newline ∉ key) (hc : colon ∉ count) (hcn : newline ∉ count) :
    entryOfWindow (key ++ colon :: (count ++ newline :: t)) =
      .ret (key, trimSpace count, none) := by
  have hnl : newline ∉ key ++ colon :: count := by
    simp only [List.mem_append, List.mem_cons, not_or]
    exact ⟨hkn, by decide, hcn⟩
  have hw : key ++ colon :: (count ++ newline :: t) = (key ++ colon :: count) ++ newline :: t := by
    simp
  apply entryOfWindow_line (key ++ colon :: (count ++ newline :: t)) hk hc
  · rw [bytesIndex_append_cons _ hk, hlen, if_neg]
    simp [hexEncodedLen, sha1Size]
  · rw [hw, bytesIndex_append_cons _ hnl, sliceTo_ret (by simp), List.take_left]

/-- A window that starts with the tail of a line, the first colon not being at the
key width, yields the record of the next line. -/
theorem entryOfWindow_skip {frag key count : List Nat} (t : List Nat)
    (hf : newline ∉ frag)
    (hne : bytesIndex (frag ++ newline :: (key ++ colon :: (count ++ newline :: t))) colon ≠ 40)
    (hk : colon ∉ key) (hkn : newline ∉ key) (hc : colon ∉ count) (hcn : newline ∉ count) :
    entryOfWindow (frag ++ newline :: (key ++ colon :: (count ++ newline :: t))) =
      .ret (key, trimSpace count, none) := by
  have hnl : newline ∉ key ++ colon :: count := by
    simp only [List.mem_append, List.mem_cons, not_or]
    exact ⟨hkn, by decide, hcn⟩
  have hw : key ++ colon :: (count ++ newline :: t) = (key ++ colon :: count) ++ newline :: t := by
    simp
  apply entryOfWindow_line (key ++ colon :: (count ++ newline :: t)) hk hc
  · rw [if_pos (by simpa [hexEncodedLen, sha1Size] using hne), bytesIndex_append_cons _ hf]
    have h1 : ((frag.length : Int) + 1) = ((frag.length + 1 : Nat) : Int) := by simp
    rw [h1, sliceFrom_ret (by simp)]
    congr 1
    have h2 : frag ++ newline :: (key ++ colon :: (count ++ newline :: t)) =
        (frag ++ [newline]) ++ (key ++ colon :: (count ++ newline :: t)) := by simp
    rw [h2]
    exact List.drop_left' (by simp)
  · rw [hw, bytesIndex_append_cons _ hnl, sliceTo_ret (by simp), List.take_left]

/-- A window without a newline makes `entryAt` panic at `line[:-1]`. -/
theorem entryOfWindow_no_newline {w : List Nat} (h : newline ∉ w) :
    entryOfWindow w = .panic .sliceBounds := by
  unfold entryOfWindow
  rw [bytesIndex_of_not_mem h]
  have h0 : sliceFrom w (-1 + 1) = .ret w := by
    have := sliceFrom_ret (s := w) (n := 0) (by omega)
    simpa using this
  split
  · rw [h0]
    simp only [Outcome.ret_bind, bytesIndex_of_not_mem h, sliceTo_neg_one, Outcome.panic_bind]
  · simp only [Outcome.pure_eq, Outcome.ret_bind, bytesIndex_of_not_mem h, sliceTo_neg_one,
      Outcome.panic_bind]

/-- A window that is the tail of the last line, the first colon not being at the key
width, makes `entryAt` panic at `line[:-1]`: nothing follows the newline. -/
theorem entryOfWindow_last_fragment {frag : List Nat} (hf : newline ∉ frag)
    (hne : bytesIndex (frag ++ [newline]) colon ≠ 40) :
    entryOfWindow (frag ++ [newline]) = .panic .sliceBounds := by
  unfold entryOfWindow
  rw [if_pos (by simpa [hexEncodedLen, sha1Size] using hne), bytesIndex_append_cons _ hf]
  have h1 : ((frag.length : Int) + 1) = ((frag.length + 1 : Nat) : Int) := by simp
  rw [h1, sliceFrom_ret (by simp)]
  have h2 : List.drop (frag.length + 1) (frag ++ [newline]) = [] := by
    apply List.drop_of_length_le; simp
  rw [h2]
  simp only [Outcome.ret_bind]
  rw [bytesIndex_of_not_mem (by simp), sliceTo_neg_one]
  rfl

/-- A window without a colon makes `entryAt` panic: at `line[:-1]` when no line can
be cut, at `pieces[1]` otherwise. -/
theorem entryOfWindow_no_colon {w : List Nat} (h : colon ∉ w) :
    ∃ p, entryOfWindow w = .panic p := by
  unfold entryOfWindow
  have hc : bytesIndex w colon ≠ (hexEncodedLen sha1Size : Int) := by
    rw [bytesIndex_of_not_mem h]; simp [hexEncodedLen, sha1Size]
  rw [if_pos hc]
  unfold sliceFrom
  split
  · rename_i hb
    simp only [Outcome.ret_bind]
    have hdrop : colon ∉ List.drop (bytesIndex w newline + 1).toNat w :=
      fun hm => h (List.mem_of_mem_drop hm)
    generalize List.drop (bytesIndex w newline + 1).toNat w = line at hdrop
    unfold sliceTo
    split
    · simp only [Outcome.ret_bind]
      have htake : colon ∉ List.take (bytesIndex line newline).toNat line :=
        fun hm => hdrop (List.mem_of_mem_take hm)
      rw [bytesSplit_no_colon htake]
      exact ⟨.indexRange, rfl⟩
    · exact ⟨.sliceBounds, rfl⟩
  · exact ⟨.sliceBounds, rfl⟩

/-! ## Reading a window -/

theorem copyInto_length (p bs : List Nat) : (copyInto p bs).length = p.length := by
  unfold copyInto
  simp only [List.length_take, List.length_append, List.length_drop]
  omega

theorem sliceTo_copyInto {p bs : List Nat} (h : bs.length ≤ p.length) :
    sliceTo (copyInto p bs) (bs.length : Int) = .ret bs := by
  rw [sliceTo_ret (by rw [copyInto_length]; exact h)]
  unfold copyInto
  rw [List.take_take, Nat.min_eq_left h, List.take_left]

/-- When the read succeeds or ends at end of file, `entryAt` works on the bytes read. -/
theorem entryAt_of_read {r : ReaderAt} {i : Int} {buf : List Nat}
    (herr : (r buf.length i).2 = none ∨ (r buf.length i).2 = some Error.eof)
    (hlen : (r buf.length i).1.length ≤ buf.length) :
    entryAt r i buf = entryOfWindow (r buf.length i).1 := by
  unfold entryAt
  have hn : ¬((r buf.length i).2 ≠ none ∧ (r buf.length i).2 ≠ some Error.eof) := by
    rcases herr with h | h <;> simp [h]
  simp only [if_neg hn, sliceTo_copyInto hlen, Outcome.ret_bind]

/-- The error of a failing read is handed on, with `nil` slices. -/
theorem entryAt_of_read_error {r : ReaderAt} {i : Int} {buf : List Nat}
    (h1 : (r buf.length i).2 ≠ none) (h2 : (r buf.length i).2 ≠ some Error.eof) :
    entryAt r i buf = .ret ([], [], (r buf.length i).2) := by
  unfold entryAt
  simp only [if_pos (And.intro h1 h2)]

theorem mmapReaderAt_bytes {data : List Nat} {h : Nat} (hh : h ≤ data.length) (cap : Nat) :
    (mmapReaderAt data cap (h : Int)).1 = (data.drop h).take cap := by
  unfold mmapReaderAt
  have : ¬((h : Int) < 0 ∨ (data.length : Int) < (h : Int)) := by omega
  rw [if_neg this]
  simp

theorem mmapReaderAt_err {data : List Nat} {h : Nat} (hh : h ≤ data.length) (cap : Nat) :
    (mmapReaderAt data cap (h : Int)).2 = none ∨
      (mmapReaderAt data cap (h : Int)).2 = some Error.eof := by
  unfold mmapReaderAt
  have : ¬((h : Int) < 0 ∨ (data.length : Int) < (h : Int)) := by omega
  simp only [if_neg this]
  split
  · exact Or.inr rfl
  · exact Or.inl rfl

/-- Over a mapped file and within it, `entryAt` works on the window of at most
`len(buf)` bytes that starts at the offset, whatever the buffer held. -/
theorem entryAt_mmap {data : List Nat} {h : Nat} (hh : h ≤ data.length) (buf : List Nat) :
    entryAt (mmapReaderAt data) (h : Int) buf = entryOfWindow ((data.drop h).take buf.length) := by
  rw [entryAt_of_read (mmapReaderAt_err hh _), mmapReaderAt_bytes hh]
  rw [mmapReaderAt_bytes hh]
  simp [List.length_take]

theorem bufferAfter_length (r : ReaderAt) (i : Int) (buf : List Nat) :
    (bufferAfter r i buf).length = buf.length := copyInto_length _ _

/-! ## The layout of a store -/

theorem storeBytes_nil : storeBytes [] = [] := rfl

theorem storeBytes_cons (r : Rec) (rs : List Rec) :
    storeBytes (r :: rs) = r.encode ++ storeBytes rs := by
  simp [storeBytes]

theorem storeBytes_append (as bs : List Rec) :
    storeBytes (as ++ bs) = storeBytes as ++ storeBytes bs := by
  simp [storeBytes]

theorem Rec.encode_length (r : Rec) : r.encode.length = r.key.length + r.count.length + 2 := by
  simp [Rec.encode]; omega

theorem startOff_zero (rs : List Rec) : startOff rs 0 = 0 := by
  simp [startOff, storeBytes]

theorem startOff_length (rs : List Rec) : startOff rs rs.length = (storeBytes rs).length := by
  simp [startOff]

theorem startOff_succ {rs : List Rec} {k : Nat} (hk : k < rs.length) :
    startOff rs (k + 1) = startOff rs k + (rs.get ⟨k, hk⟩).encode.length := by
  unfold startOff
  rw [List.take_succ, storeBytes_append]
  simp [List.getElem?_eq_getElem hk, storeBytes]

theorem startOff_mono (rs : List Rec) {a b : Nat} (h : a ≤ b) : startOff rs a ≤ startOff rs b := by
  unfold startOff
  have : rs.take b = rs.take a ++ (rs.take b).drop a := by
    conv_lhs => rw [← List.take_append_drop a (rs.take b)]
    rw [List.take_take, Nat.min_eq_left h]
  rw [this, storeBytes_append, List.length_append]
  omega

theorem startOff_le_size (rs : List Rec) (k : Nat) : startOff rs k ≤ (storeBytes rs).length := by
  by_cases h : k ≤ rs.length
  · rw [← startOff_length]; exact startOff_mono rs h
  · unfold startOff
    rw [List.take_of_length_le (by omega)]

/-- From the start offset of record `k` on, the store is the store of the records
from `k` on. -/
theorem drop_startOff (rs : List Rec) (k : Nat) :
    (storeBytes rs).drop (startOff rs k) = storeBytes (rs.drop k) := by
  have h : storeBytes rs = storeBytes (rs.take k) ++ storeBytes (rs.drop k) := by
    rw [← storeBytes_append, List.take_append_drop]
  unfold startOff
  conv_lhs => rw [h]
  exact List.drop_left _ _

theorem drop_startOff_get {rs : List Rec} {k : Nat} (hk : k < rs.length) :
    (storeBytes rs).drop (startOff rs k) =
      (rs.get ⟨k, hk⟩).encode ++ storeBytes (rs.drop (k + 1)) := by
  rw [drop_startOff, List.drop_eq_getElem_cons hk, storeBytes_cons]
  rfl

/-- From an offset `d` bytes into record `k` on, the store is the rest of that line
followed by the store of the later records. -/
theorem drop_startOff_add {rs : List Rec} {k : Nat} (hk : k < rs.length) (d : Nat) :
    (storeBytes rs).drop (startOff rs k + d) =
      (rs.get ⟨k, hk⟩).encode.drop d ++ (storeBytes (rs.drop (k + 1))).drop
        (d - (rs.get ⟨k, hk⟩).encode.length) := by
  rw [← List.drop_drop, drop_startOff_get hk, List.drop_append_eq_append_drop]

/-! ## Probing a well-formed store -/

theorem take_window {x : List Nat} (rest : List Nat) {b : Nat} (h : x.length ≤ b) :
    (x ++ rest).take b = x ++ rest.take (b - x.length) := by
  rw [List.take_append_eq_append_take, List.take_of_length_le h]

/-- After a proper, non-empty start of a line was cut off, the first colon of what
remains is not at index 40, whatever follows the line, as long as no colon sits
within the first 40 bytes of what follows. -/
theorem fragment_colon_ne {key count y : List Nat} {d : Nat} (hd : 0 < d)
    (hlen : key.length = 40) (hk : colon ∉ key) (hc : colon ∉ count)
    (hy : colon ∉ y.take 40) :
    bytesIndex ((key ++ colon :: count).drop d ++ newline :: y) colon ≠ 40 := by
  by_cases hd40 : d ≤ 40
  · rw [List.drop_append_of_le_length (by omega), List.append_assoc, List.cons_append,
      bytesIndex_append_cons _ (fun hm => hk (List.mem_of_mem_drop hm))]
    simp only [List.length_drop, hlen]
    omega
  · intro h
    have hget := bytesIndex_getElem? (n := 40) (by exact_mod_cast h)
    have hfrag : (key ++ colon :: count).drop d = count.drop (d - 41) := by
      rw [List.drop_append_eq_append_drop, List.drop_of_length_le (by omega), hlen]
      have : d - 40 = (d - 41) + 1 := by omega
      rw [this]
      rfl
    rw [hfrag] at hget
    have hcf : colon ∉ count.drop (d - 41) := fun hm => hc (List.mem_of_mem_drop hm)
    generalize count.drop (d - 41) = frag at hget hcf
    rcases Nat.lt_trichotomy 40 frag.length with hlt | heq | hgt
    · rw [List.getElem?_append_left hlt] at hget
      exact hcf (List.getElem?_mem hget)
    · rw [List.getElem?_append_right (by omega), ← heq] at hget
      simp [newline, colon] at hget
    · rw [List.getElem?_append_right (by omega)] at hget
      have h1 : 40 - frag.length = (40 - frag.length - 1) + 1 := by omega
      rw [h1, List.getElem?_cons_succ] at hget
      rw [← List.getElem?_take_of_lt (n := 40) (by omega)] at hget
      exact hy (List.getElem?_mem hget)

theorem Rec.encode_eq (r : Rec) (rest : List Nat) :
    r.encode ++ rest = r.key ++ colon :: (r.count ++ newline :: rest) := by
  simp [Rec.encode]

theorem Rec.encode_drop (r : Rec) {d : Nat} (hd : d < r.encode.length) :
    r.encode.drop d = (r.key ++ colon :: r.count).drop d ++ [newline] := by
  have h : r.encode = (r.key ++ colon :: r.count) ++ [newline] := by simp [Rec.encode]
  rw [h, List.drop_append_of_le_length]
  rw [h] at hd
  simp only [List.length_append, List.length_cons, List.length_nil] at hd ⊢
  omega

theorem Rec.newline_not_mem {r : Rec} (h : r.WellFormed) : newline ∉ r.key ++ colon :: r.count := by
  simp only [List.mem_append, List.mem_cons, not_or]
  exact ⟨h.2.2.1, by decide, h.2.2.2.2⟩

/-- A probe at the start of a record yields that record. -/
theorem entryAt_record_start {rs : List Rec} (hwf : WellFormed rs) {k : Nat}
    (hk : k < rs.length) (buf : List Nat) (hbuf : (rs.get ⟨k, hk⟩).encode.length ≤ buf.length) :
    entryAt (mmapReaderAt (storeBytes rs)) (startOff rs k : Nat) buf =
      .ret ((rs.get ⟨k, hk⟩).key, trimSpace (rs.get ⟨k, hk⟩).count, none) := by
  have hr := hwf _ (List.get_mem rs k hk)
  rw [entryAt_mmap (startOff_le_size rs k), drop_startOff_get hk, take_window _ hbuf,
    Rec.encode_eq]
  exact entryOfWindow_at_start _ hr.1 hr.2.1 hr.2.2.1 hr.2.2.2.1 hr.2.2.2.2

/-- A probe inside a record that is not the last one yields the next record. -/
theorem entryAt_mid_record {rs : List Rec} (hwf : WellFormed rs) {k : Nat}
    (hk : k + 1 < rs.length) {d : Nat} (hd : 0 < d)
    (hd2 : d < (rs.get ⟨k, by omega⟩).encode.length) (buf : List Nat)
    (hbuf : (rs.get ⟨k, by omega⟩).encode.length - d + (rs.get ⟨k + 1, hk⟩).encode.length
      ≤ buf.length) :
    entryAt (mmapReaderAt (storeBytes rs)) ((startOff rs k + d : Nat) : Int) buf =
      .ret ((rs.get ⟨k + 1, hk⟩).key, trimSpace (rs.get ⟨k + 1, hk⟩).count, none) := by
  have hk0 : k < rs.length := by omega
  have hr := hwf _ (List.get_mem rs k hk0)
  have hr1 := hwf _ (List.get_mem rs (k + 1) hk)
  have hle : startOff rs k + d ≤ (storeBytes rs).length := by
    have h1 := startOff_succ hk0
    have h2 := startOff_le_size rs (k + 1)
    omega
  have hrest : storeBytes (rs.drop (k + 1)) =
      (rs.get ⟨k + 1, hk⟩).encode ++ storeBytes (rs.drop (k + 1 + 1)) := by
    rw [List.drop_eq_getElem_cons hk, storeBytes_cons]; rfl
  rw [entryAt_mmap hle, drop_startOff_add hk0, Nat.sub_eq_zero_of_le (le_of_lt hd2),
    List.drop_zero, hrest, Rec.encode_drop _ hd2, ← List.append_assoc]
  rw [take_window _ (by
    simp only [List.length_append, List.length_drop, List.length_cons, List.length_nil]
    have := Rec.encode_length (rs.get ⟨k, hk0⟩)
    simp only [List.length_append, List.length_cons] at *
    omega)]
  rw [List.append_assoc, Rec.encode_eq, List.append_assoc, List.singleton_append]
  apply entryOfWindow_skip _ _ _ hr1.2.1 hr1.2.2.1 hr1.2.2.2.1 hr1.2.2.2.2
  · exact fun hm => Rec.newline_not_mem hr (List.mem_of_mem_drop hm)
  · apply fragment_colon_ne hd hr.1 hr.2.1 hr.2.2.2.1
    rw [List.take_append_of_le_length (by rw [hr1.1]), List.take_of_length_le (by rw [hr1.1])]
    exact hr1.2.1

/-- A probe after the start of the last record, up to the end of the file, panics:
no newline follows the one that ends the skipped fragment. -/
theorem entryAt_past_last {rs : List Rec} (hwf : WellFormed rs) {k : Nat}
    (hk : k + 1 = rs.length) {h : Nat} (h1 : startOff rs k < h)
    (h2 : h ≤ (storeBytes rs).length) (buf : List Nat) :
    entryAt (mmapReaderAt (storeBytes rs)) (h : Int) buf = .panic .sliceBounds := by
  have hk0 : k < rs.length := by omega
  have hr := hwf _ (List.get_mem rs k hk0)
  obtain ⟨d, rfl⟩ : ∃ d, h = startOff rs k + d := ⟨h - startOff rs k, by omega⟩
  have hd : 0 < d := by omega
  have hsz : startOff rs k + (rs.get ⟨k, hk0⟩).encode.length = (storeBytes rs).length := by
    rw [← startOff_succ hk0, hk, startOff_length]
  have hnil : storeBytes (rs.drop (k + 1)) = [] := by
    rw [List.drop_of_length_le (by omega)]; rfl
  rw [entryAt_mmap h2, drop_startOff_add hk0, hnil, List.drop_nil, List.append_nil]
  by_cases hd2 : d < (rs.get ⟨k, hk0⟩).encode.length
  · rw [Rec.encode_drop _ hd2]
    have hf : newline ∉ ((rs.get ⟨k, hk0⟩).key ++ colon :: (rs.get ⟨k, hk0⟩).count).drop d :=
      fun hm => Rec.newline_not_mem hr (List.mem_of_mem_drop hm)
    have hne := fragment_colon_ne (y := []) hd hr.1 hr.2.1 hr.2.2.2.1 (by simp)
    generalize ((rs.get ⟨k, hk0⟩).key ++ colon :: (rs.get ⟨k, hk0⟩).count).drop d = frag at hf hne
    by_cases hb : frag.length + 1 ≤ buf.length
    · rw [List.take_of_length_le (by simpa using hb)]
      exact entryOfWindow_last_fragment hf hne
    · rw [List.take_append_of_le_length (by omega)]
      exact entryOfWindow_no_newline (fun hm => hf (List.mem_of_mem_take hm))
  · rw [List.drop_of_length_le (by omega), List.take_nil]
    exact entryOfWindow_no_newline (by simp)

/-- A probe into an empty store panics. -/
theorem entryAt_empty (buf : List Nat) :
    entryAt (mmapReaderAt (storeBytes [])) ((0 : Nat) : Int) buf = .panic .sliceBounds := by
  rw [entryAt_mmap (by simp)]
  simp only [storeBytes_nil, List.drop_nil, List.take_nil]
  exact entryOfWindow_no_newline (by simp)

/-- A probe yields the first record that starts at or after the probed offset, when
the buffer holds two lines of maximal length. -/
theorem entryAt_locates {rs : List Rec} (hwf : WellFormed rs) {m : Nat} (hmax : MaxLine m rs)
    (buf : List Nat) (hbuf : 2 * m ≤ buf.length) {h k : Nat} (hk : k < rs.length)
    (hle : h ≤ startOff rs k) (hleast : ∀ j, j < k → startOff rs j < h) :
    entryAt (mmapReaderAt (storeBytes rs)) (h : Int) buf =
      .ret ((rs.get ⟨k, hk⟩).key, trimSpace (rs.get ⟨k, hk⟩).count, none) := by
  have hmk := hmax _ (List.get_mem rs k hk)
  by_cases heq : h = startOff rs k
  · subst heq
    exact entryAt_record_start hwf hk buf (by omega)
  · cases k with
    | zero => rw [startOff_zero] at hle heq; omega
    | succ k =>
      have hk0 : k < rs.length := by omega
      have hlt := hleast k (by omega)
      have hs := startOff_succ hk0
      have hmk0 := hmax _ (List.get_mem rs k hk0)
      obtain ⟨d, rfl⟩ : ∃ d, h = startOff rs k + d := ⟨h - startOff rs k, by omega⟩
      exact entryAt_mid_record hwf hk (by omega) (by omega) buf (by omega)

/-- Every offset within the file has a least record index `k ≤ len(rs)` whose start
offset is at or after it, counting the end of the file as index `len(rs)`. -/
theorem exists_first_at_or_after (rs : List Rec) {h : Nat} (hh : h ≤ (storeBytes rs).length) :
    ∃ k, k ≤ rs.length ∧ h ≤ startOff rs k ∧ ∀ j, j < k → startOff rs j < h := by
  have hex : ∃ k, h ≤ startOff rs k := ⟨rs.length, by rw [startOff_length]; exact hh⟩
  refine ⟨Nat.find hex, ?_, Nat.find_spec hex, ?_⟩
  · exact Nat.find_min' hex (by rw [startOff_length]; exact hh)
  · intro j hj
    have := Nat.find_min hex hj
    omega

/-- The two behaviours of a probe within a well-formed store: it yields the first
record at or after the offset, or the offset is past the start of every record and
the probe panics. -/
theorem entryAt_cases {rs : List Rec} (hwf : WellFormed rs) {m : Nat} (hmax : MaxLine m rs)
    (buf : List Nat) (hbuf : 2 * m ≤ buf.length) {h : Nat} (hh : h ≤ (storeBytes rs).length) :
    (∃ k, ∃ hk : k < rs.length, h ≤ startOff rs k ∧ (∀ j, j < k → startOff rs j < h) ∧
        entryAt (mmapReaderAt (storeBytes rs)) (h : Int) buf =
          .ret ((rs.get ⟨k, hk⟩).key, trimSpace (rs.get ⟨k, hk⟩).count, none)) ∨
      ((∀ j, j < rs.length → startOff rs j < h) ∧
        entryAt (mmapReaderAt (storeBytes rs)) (h : Int) buf = .panic .sliceBounds) := by
  obtain ⟨k, hk, hle, hleast⟩ := exists_first_at_or_after rs hh
  by_cases hlt : k < rs.length
  · exact Or.inl ⟨k, hlt, hle, hleast, entryAt_locates hwf hmax buf hbuf hlt hle hleast⟩
  · have hkeq : k = rs.length := by omega
    subst hkeq
    refine Or.inr ⟨hleast, ?_⟩
    cases hrs : rs.length with
    | zero =>
      have hnil : rs = [] := List.length_eq_zero.1 hrs
      subst hnil
      have h0 : h = 0 := by simpa [storeBytes] using hh
      subst h0
      exact entryAt_empty buf
    | succ n =>
      exact entryAt_past_last hwf hrs.symm (hleast n (by omega)) hh buf

/-! ## Lexicographic order of keys -/

theorem bytesCompare_swap : ∀ a b : List Nat, bytesCompare b a = -bytesCompare a b
  | [], [] => by simp [bytesCompare]
  | [], _ :: _ => by simp [bytesCompare]
  | _ :: _, [] => by simp [bytesCompare]
  | a :: as, b :: bs => by
    have ih := bytesCompare_swap as bs
    simp only [bytesCompare]
    split_ifs <;> omega

theorem bytesCompare_lt_trans : ∀ a b c : List Nat,
    bytesCompare a b < 0 → bytesCompare b c < 0 → bytesCompare a c < 0
  | [], [], _ => by simp [bytesCompare]
  | [], _ :: _, [] => by simp [bytesCompare]
  | [], _ :: _, _ :: _ => by simp [bytesCompare]
  | _ :: _, [], _ => by simp [bytesCompare]
  | _ :: _, _ :: _, [] => by simp [bytesCompare]
  | a :: as, b :: bs, c :: cs => by
    have ih := bytesCompare_lt_trans as bs cs
    simp only [bytesCompare]
    intro h1 h2
    split_ifs at h1 h2 ⊢ <;> omega

/-! ## The loop of `sort.Search` -/

theorem midpoint_eq {i j : Nat} (hj : j < 2 ^ 63) (hij : i < j) :
    (i + j) % 2 ^ 64 / 2 = (i + j) / 2 := by
  rw [Nat.mod_eq_of_lt (by omega)]

/-- More fuel than `j - i` changes nothing: the loop ends by itself. -/
theorem searchLoop_fuel {σ : Type} (f : σ → Nat → Outcome (Bool × σ)) :
    ∀ (fuel i j : Nat) (s : σ), j < 2 ^ 63 → j - i ≤ fuel →
      searchLoop f (fuel + 1) i j s = searchLoop f fuel i j s := by
  intro fuel
  induction fuel with
  | zero =>
    intro i j s _ hf
    have : ¬ i < j := by omega
    simp [searchLoop, this]
  | succ n ih =>
    intro i j s hj hf
    rw [searchLoop, searchLoop]
    by_cases hij : i < j
    · simp only [if_pos hij]
      have hm := midpoint_eq hj hij
      cases hfs : f s ((i + j) % 2 ^ 64 / 2) with
      | panic p => rfl
      | ret a =>
        obtain ⟨b, s1⟩ := a
        simp only
        cases b
        · simp only [Bool.not_false, if_true]
          exact ih _ _ _ hj (by omega)
        · simp only [Bool.not_true, Bool.false_eq_true, if_false]
          exact ih _ _ _ (by omega) (by omega)
    · simp only [if_neg hij]

/-- What a normal return of the loop tells: the result `t` lies in `[i, j]`; unless
`t = i`, the closure was called at `t - 1` and answered `false`; unless `t = j`, it
was called at `t < j` and answered `true`. An invariant of the captured state that every
call keeps holds at those calls and at the end. -/
theorem searchLoop_spec {σ : Type} (f : σ → Nat → Outcome (Bool × σ)) (Inv : σ → Prop)
    (hInv : ∀ s h b s1, Inv s → f s h = .ret (b, s1) → Inv s1) :
    ∀ (fuel i j : Nat) (s : σ) (t : Nat) (s' : σ), Inv s → i ≤ j → j < 2 ^ 63 →
      j - i ≤ fuel → searchLoop f fuel i j s = .ret (t, s') →
      i ≤ t ∧ t ≤ j ∧ Inv s' ∧
      (t = i ∨ ∃ s0 s1, Inv s0 ∧ 0 < t ∧ f s0 (t - 1) = .ret (false, s1)) ∧
      (t = j ∨ ∃ s0 s1, Inv s0 ∧ t < j ∧ f s0 t = .ret (true, s1)) := by
  intro fuel
  induction fuel with
  | zero =>
    intro i j s t s' hs hij _ hf heq
    simp only [searchLoop, Outcome.ret.injEq, Prod.mk.injEq] at heq
    obtain ⟨rfl, rfl⟩ := heq
    exact ⟨le_refl _, hij, hs, Or.inl rfl, Or.inl (by omega)⟩
  | succ n ih =>
    intro i j s t s' hs hij hj hf heq
    rw [searchLoop] at heq
    by_cases hlt : i < j
    · simp only [if_pos hlt] at heq
      have hm := midpoint_eq hj hlt
      rw [hm] at heq
      cases hfs : f s ((i + j) / 2) with
      | panic p => rw [hfs] at heq; simp at heq
      | ret a =>
        obtain ⟨b, s1⟩ := a
        rw [hfs] at heq
        simp only at heq
        have hs1 := hInv _ _ _ _ hs hfs
        cases b
        · simp only [Bool.not_false, if_true] at heq
          obtain ⟨h1, h2, h3, h4, h5⟩ := ih _ _ _ _ _ hs1 (by omega) hj (by omega) heq
          refine ⟨by omega, h2, h3, ?_, h5⟩
          rcases h4 with h4 | h4
          · refine Or.inr ⟨s, s1, hs, by omega, ?_⟩
            rw [h4]; simpa using hfs
          · exact Or.inr h4
        · simp only [Bool.not_true, Bool.false_eq_true, if_false] at heq
          obtain ⟨h1, h2, h3, h4, h5⟩ := ih _ _ _ _ _ hs1 (by omega) (by omega) (by omega) heq
          refine ⟨h1, by omega, h3, h4, ?_⟩
          rcases h5 with h5 | ⟨s0, s2, h6, h7, h8⟩
          · exact Or.inr ⟨s, s1, hs, by omega, by rw [h5]; exact hfs⟩
          · exact Or.inr ⟨s0, s2, h6, by omega, h8⟩
    · simp only [if_neg hlt, Outcome.ret.injEq, Prod.mk.injEq] at heq
      obtain ⟨rfl, rfl⟩ := heq
      exact ⟨le_refl _, hij, hs, Or.inl rfl, Or.inl (by omega)⟩

/-! ## `search` over a well-formed store -/

theorem startOff_lt {rs : List Rec} {a b : Nat} (hab : a < b) (hb : b ≤ rs.length) :
    startOff rs a < startOff rs b := by
  have ha : a < rs.length := by omega
  have h1 := startOff_succ ha
  have h2 := Rec.encode_length (rs.get ⟨a, ha⟩)
  have h3 := startOff_mono rs (show a + 1 ≤ b by omega)
  omega

theorem index_le_of_startOff_le {rs : List Rec} {a b : Nat}
    (h : startOff rs a ≤ startOff rs b) (ha : a < rs.length) : a ≤ b := by
  by_contra hc
  have : startOff rs b < startOff rs a := startOff_lt (show b < a by omega) (by omega)
  omega

theorem startOff_add_two_le {rs : List Rec} {k : Nat} (hk : k < rs.length) :
    startOff rs k + 2 ≤ (storeBytes rs).length := by
  have h1 := startOff_succ hk
  have h2 := Rec.encode_length (rs.get ⟨k, hk⟩)
  have h3 := startOff_le_size rs (k + 1)
  omega

/-- In a sorted store a record that is not after another one has a key that is not
greater: if the later key is below the query, so is the earlier one. -/
theorem key_lt_of_le {rs : List Rec} (hs : Sorted rs) {a b : Nat} (ha : a < rs.length)
    (hb : b < rs.length) (hab : a ≤ b) {query : List Nat}
    (h : bytesCompare (rs.get ⟨b, hb⟩).key query < 0) :
    bytesCompare (rs.get ⟨a, ha⟩).key query < 0 := by
  rcases Nat.eq_or_lt_of_le hab with heq | hlt
  · subst heq; exact h
  · have := List.pairwise_iff_get.1 hs ⟨a, ha⟩ ⟨b, hb⟩ hlt
    exact bytesCompare_lt_trans _ _ _ this h

theorem searchProbe_buf {r : ReaderAt} {query : List Nat} {s s1 : SearchState} {h : Nat}
    {b : Bool} (hp : searchProbe r query s h = .ret (b, s1)) :
    s1.buf.length = s.buf.length := by
  unfold searchProbe at hp
  split at hp
  · simp at hp
  · simp only [Outcome.ret.injEq, Prod.mk.injEq] at hp
    rw [← hp.2]
    exact bufferAfter_length _ _ _

/-- A probe of `search` within a well-formed store that returns has compared the
query with the key of the first record at or after the probed offset. -/
theorem searchProbe_wf {rs : List Rec} (hwf : WellFormed rs) {m : Nat} (hmax : MaxLine m rs)
    {query : List Nat} {s s1 : SearchState} (hbuf : 2 * m ≤ s.buf.length) {h : Nat}
    (hh : h ≤ (storeBytes rs).length) {b : Bool}
    (hp : searchProbe (mmapReaderAt (storeBytes rs)) query s h = .ret (b, s1)) :
    ∃ k, ∃ hk : k < rs.length, h ≤ startOff rs k ∧ (∀ j, j < k → startOff rs j < h) ∧
      b = decide (bytesCompare query (rs.get ⟨k, hk⟩).key ≤ 0) := by
  rcases entryAt_cases hwf hmax s.buf hbuf hh with ⟨k, hk, h1, h2, h3⟩ | ⟨_, h3⟩
  · refine ⟨k, hk, h1, h2, ?_⟩
    unfold searchProbe at hp
    rw [h3] at hp
    simp only [Outcome.ret.injEq, Prod.mk.injEq] at hp
    exact hp.1.symm
  · unfold searchProbe at hp
    rw [h3] at hp
    simp at hp

/-- What a normal return of `search` over a well-formed store tells about the
returned offset `t`: the buffer kept its length; unless `t = 0`, the first record at
or after `t - 1` has a key below the query; unless `t` is the file size, the first
record at or after `t` has a key at or above the query. -/
theorem searchRun_ret_facts {rs : List Rec} (hwf : WellFormed rs) {m : Nat} (hmax : MaxLine m rs)
    (hsz : (storeBytes rs).length < 2 ^ 63) {buf : List Nat} (hbuf : 2 * m ≤ buf.length)
    {query : List Nat} {t : Nat} {st : SearchState}
    (h : searchRun (storeBytes rs).length (mmapReaderAt (storeBytes rs)) buf query = .ret (t, st)) :
    st.buf.length = buf.length ∧ t ≤ (storeBytes rs).length ∧
    (t = 0 ∨ ∃ k, ∃ hk : k < rs.length, 0 < t ∧ t - 1 ≤ startOff rs k ∧
      bytesCompare (rs.get ⟨k, hk⟩).key query < 0) ∧
    (t = (storeBytes rs).length ∨ ∃ k, ∃ hk : k < rs.length, t ≤ startOff rs k ∧
      (∀ j, j < k → startOff rs j < t) ∧ bytesCompare query (rs.get ⟨k, hk⟩).key ≤ 0) := by
  unfold searchRun sortSearch at h
  obtain ⟨_, h2, h3, h4, h5⟩ := searchLoop_spec (searchProbe (mmapReaderAt (storeBytes rs)) query)
    (fun s => s.buf.length = buf.length) (fun s h b s1 hs hp =>
      (searchProbe_buf hp).trans hs)
    _ _ _ _ _ _ rfl (Nat.zero_le _) hsz (by omega) h
  refine ⟨h3, h2, ?_, ?_⟩
  · rcases h4 with h4 | ⟨s0, s1, hs0, ht, hp⟩
    · exact Or.inl h4
    · obtain ⟨k, hk, hk1, _, hk3⟩ :=
        searchProbe_wf hwf hmax (by rw [hs0]; exact hbuf) (by omega) hp
      refine Or.inr ⟨k, hk, ht, hk1, ?_⟩
      have hgt : ¬ bytesCompare query (rs.get ⟨k, hk⟩).key ≤ 0 := by
        intro hc
        rw [decide_eq_true hc] at hk3
        exact Bool.noConfusion hk3
      rw [bytesCompare_swap query]
      omega
  · rcases h5 with h5 | ⟨s0, s1, hs0, _, hp⟩
    · exact Or.inl h5
    · obtain ⟨k, hk, hk1, hk2, hk3⟩ :=
        searchProbe_wf hwf hmax (by rw [hs0]; exact hbuf) h2 hp
      exact Or.inr ⟨k, hk, hk1, hk2, of_decide_eq_true hk3.symm⟩

/-- The lower-bound property of a normal return of `search`. -/
theorem searchRun_lower_bound {rs : List Rec} (hwf : WellFormed rs) (hs : Sorted rs) {m : Nat}
    (hmax : MaxLine m rs) (hsz : (storeBytes rs).length < 2 ^ 63) {buf : List Nat}
    (hbuf : 2 * m ≤ buf.length) {query : List Nat} {t : Nat} {st : SearchState}
    (h : searchRun (storeBytes rs).length (mmapReaderAt (storeBytes rs)) buf query = .ret (t, st))
    {k : Nat} (hk : k < rs.length) (hlt : startOff rs k < t) :
    bytesCompare (rs.get ⟨k, hk⟩).key query < 0 := by
  obtain ⟨_, _, h3, _⟩ := searchRun_ret_facts hwf hmax hsz hbuf h
  rcases h3 with h3 | ⟨k', hk', _, hle, hcmp⟩
  · omega
  · exact key_lt_of_le hs hk hk' (index_le_of_startOff_le (by omega) hk) hcmp

/-- A normal return of `search` over a non-empty well-formed store is never the file
size: the probe at the last byte would have panicked. -/
theorem searchRun_ret_lt_size {rs : List Rec} (hwf : WellFormed rs) {m : Nat} (hmax : MaxLine m rs)
    (hsz : (storeBytes rs).length < 2 ^ 63) {buf : List Nat} (hbuf : 2 * m ≤ buf.length)
    {query : List Nat} {t : Nat} {st : SearchState} (hne : rs ≠ [])
    (h : searchRun (storeBytes rs).length (mmapReaderAt (storeBytes rs)) buf query = .ret (t, st)) :
    t < (storeBytes rs).length := by
  obtain ⟨_, h2, h3, _⟩ := searchRun_ret_facts hwf hmax hsz hbuf h
  have hpos : 0 < rs.length := List.length_pos.2 hne
  have h0 := startOff_add_two_le hpos
  rcases h3 with h3 | ⟨k, hk, _, hle, _⟩
  · omega
  · have := startOff_add_two_le hk
    omega

/-- After a normal return of `search` over a non-empty well-formed sorted store, the
first record that starts at or after the returned offset is the first record whose
key is at or above the query, and `entryAt` at that offset yields it. -/
theorem searchRun_finds_first_ge {rs : List Rec} (hwf : WellFormed rs) (hs : Sorted rs) {m : Nat}
    (hmax : MaxLine m rs) (hsz : (storeBytes rs).length < 2 ^ 63) {buf : List Nat}
    (hbuf : 2 * m ≤ buf.length) {query : List Nat} {t : Nat} {st : SearchState} (hne : rs ≠ [])
    (h : searchRun (storeBytes rs).length (mmapReaderAt (storeBytes rs)) buf query = .ret (t, st)) :
    ∃ k, ∃ hk : k < rs.length,
      bytesCompare query (rs.get ⟨k, hk⟩).key ≤ 0 ∧
      (∀ j, ∀ hj : j < rs.length, j < k → bytesCompare (rs.get ⟨j, hj⟩).key query < 0) ∧
      t ≤ startOff rs k ∧ (∀ j, j < k → startOff rs j < t) ∧
      entryAt (mmapReaderAt (storeBytes rs)) (t : Int) st.buf =
        .ret ((rs.get ⟨k, hk⟩).key, trimSpace (rs.get ⟨k, hk⟩).count, none) := by
  have hlt := searchRun_ret_lt_size hwf hmax hsz hbuf hne h
  obtain ⟨h1, _, _, h4⟩ := searchRun_ret_facts hwf hmax hsz hbuf h
  rcases h4 with h4 | ⟨k, hk, hle, hleast, hcmp⟩
  · omega
  · refine ⟨k, hk, hcmp, ?_, hle, hleast, ?_⟩
    · intro j hj hjk
      exact searchRun_lower_bound hwf hs hmax hsz hbuf h hj (hleast j hjk)
    · exact entryAt_locates hwf hmax st.buf (by rw [h1]; exact hbuf) hk hle hleast

/-- Over a non-empty well-formed sorted store, a search for a query above every key
never returns: it panics at a probe inside the last record. -/
theorem searchRun_above_all_keys_panics {rs : List Rec} (hwf : WellFormed rs) {m : Nat}
    (hmax : MaxLine m rs) (hsz : (storeBytes rs).length < 2 ^ 63) {buf : List Nat}
    (hbuf : 2 * m ≤ buf.length) {query : List Nat} (hne : rs ≠ [])
    (habove : ∀ r, r ∈ rs → bytesCompare r.key query < 0) :
    ∃ p, searchRun (storeBytes rs).length (mmapReaderAt (storeBytes rs)) buf query =
      .panic p := by
  cases hrun : searchRun (storeBytes rs).length (mmapReaderAt (storeBytes rs)) buf query with
  | panic p => exact ⟨p, rfl⟩
  | ret x =>
    obtain ⟨t, st⟩ := x
    have hlt := searchRun_ret_lt_size hwf hmax hsz hbuf hne hrun
    obtain ⟨_, _, _, h4⟩ := searchRun_ret_facts hwf hmax hsz hbuf hrun
    rcases h4 with h4 | ⟨k, hk, _, _, hcmp⟩
    · omega
    · have := habove _ (List.get_mem rs k hk)
      rw [bytesCompare_swap query] at this
      omega

theorem search_eq_ret {size : Nat} {r : ReaderAt} {buf query : List Nat} {t : Nat}
    {e : Option Error} (h : search size r buf query = .ret (t, e)) :
    ∃ st, searchRun size r buf query = .ret (t, st) ∧ st.reterr = e := by
  unfold search at h
  cases hr : searchRun size r buf query with
  | panic p => rw [hr] at h; simp at h
  | ret x =>
    rw [hr] at h
    simp only [Outcome.ret_bind, Outcome.ret.injEq, Prod.mk.injEq] at h
    exact ⟨x.2, by rw [← h.1], h.2⟩

/-! ## `strconv.Atoi` against the decimal reading of a count field -/

theorem foldl_digit_ge : ∀ (ds : List Nat) (n : Nat),
    n ≤ ds.foldl (fun n c => n * 10 + (c - 48)) n
  | [], _ => le_refl _
  | c :: cs, n => by
    have := foldl_digit_ge cs (n * 10 + (c - 48))
    simp only [List.foldl_cons]
    omega

theorem parseUintLoop_digits : ∀ (ds : List Nat) (n : Nat), n < 2 ^ 64 →
    ds.all isDigit = true →
    parseUintLoop ds n =
      if ds.foldl (fun n c => n * 10 + (c - 48)) n < 2 ^ 64 then
        .ok (ds.foldl (fun n c => n * 10 + (c - 48)) n)
      else .error .outOfRange
  | [], n, hn, _ => by rw [parseUintLoop, List.foldl_nil, if_pos hn]
  | c :: cs, n, hn, hall => by
    simp only [List.all_cons, Bool.and_eq_true] at hall
    have hc : 48 ≤ c ∧ c ≤ 57 := by simpa [isDigit] using hall.1
    rw [parseUintLoop, if_pos hc, List.foldl_cons]
    by_cases hov : 2 ^ 64 ≤ n * 10 + (c - 48)
    · have := foldl_digit_ge cs (n * 10 + (c - 48))
      rw [if_pos hov, if_neg (by omega)]
    · rw [if_neg hov]
      exact parseUintLoop_digits cs _ (by omega) hall.2

theorem parseUintLoop_not_digits : ∀ (ds : List Nat) (n : Nat), ds.all isDigit = false →
    ∃ e, parseUintLoop ds n = .error e
  | [], _, h => by simp at h
  | c :: cs, n, hall => by
    rw [parseUintLoop]
    by_cases hc : 48 ≤ c ∧ c ≤ 57
    · rw [if_pos hc]
      by_cases hov : 2 ^ 64 ≤ n * 10 + (c - 48)
      · rw [if_pos hov]; exact ⟨_, rfl⟩
      · rw [if_neg hov]
        apply parseUintLoop_not_digits cs
        have hd : isDigit c = true := by simpa [isDigit] using hc
        simpa [List.all_cons, hd] using hall
    · rw [if_neg hc]; exact ⟨_, rfl⟩

/-- The call `strconv.Atoi` succeeds exactly on the optionally signed decimal integers
within the range of a 64-bit `int`, with their value, and fails on anything else. -/
theorem Atoi_spec (s : List Nat) :
    (∀ v, signedDecimal s = some v → Atoi s = .ok v) ∧
    (signedDecimal s = none → ∃ e, Atoi s = .error e) := by
  cases s with
  | nil => simp [signedDecimal, Atoi]
  | cons c cs =>
    simp only [signedDecimal, Atoi, List.head?_cons, Option.some.injEq, List.tail_cons]
    generalize hds : (if c = 43 ∨ c = 45 then cs else c :: cs) = ds
    by_cases hnil : ds = []
    · simp [hnil]
    · by_cases hall : ds.all isDigit = true
      · rw [if_pos ⟨hnil, hall⟩, if_neg hnil, parseUintLoop_digits ds 0 (by norm_num) hall]
        have hval : ds.foldl (fun n c => n * 10 + (c - 48)) 0 = digitsValue ds := rfl
        rw [hval]
        generalize digitsValue ds = un
        by_cases h64 : un < 2 ^ 64
        · rw [if_pos h64]
          by_cases hneg : c = 45
          · simp only [hneg, if_true]
            by_cases hr : 2 ^ 63 < un
            · rw [if_pos hr, if_neg (by omega)]
              simp
            · rw [if_neg hr, if_pos (by omega)]
              simp
          · simp only [hneg, if_false]
            by_cases hr : 2 ^ 63 ≤ un
            · rw [if_pos hr, if_neg (by omega)]
              simp
            · rw [if_neg hr, if_pos (by omega)]
              simp
        · rw [if_neg h64]
          have : ¬ (-(2 : Int) ^ 63 ≤ (if c = 45 then -(un : Int) else (un : Int)) ∧
              (if c = 45 then -(un : Int) else (un : Int)) < (2 : Int) ^ 63) := by
            split <;> omega
          rw [if_neg this]
          simp
      · have hall2 : ds.all isDigit = false := by simpa using hall
        rw [if_neg (fun h => hall h.2), if_neg hnil]
        obtain ⟨e, he⟩ := parseUintLoop_not_digits ds 0 hall2
        rw [he]
        constructor
        · intro v hv; simp at hv
        · intro _
          cases e <;> exact ⟨_, rfl⟩

/-! ## The claims -/

set_option maxRecDepth 100000 in
/-- C1, as a defect of the code. The claim asks that the search for a key that is
in a well-formed sorted store ends at an offset where `entryAt` yields its record.
On the store with the single record `000000005AD76BD555C1D6D771DE417A4B87E4B4:4`
(43 bytes) the search for that key does not return: its first probe, at offset 21,
lies inside the last record, `entryAt` finds nothing after the newline and panics at
`line[:-1]`, and so does `checkPasswords`. The same happens on a store of two records
(43 and 48 bytes) for the key of either: the first probe is at offset 45. -/
theorem C1_single_record_search_panics :
    WellFormed oneRecord ∧ Sorted oneRecord ∧ MaxLine 64 oneRecord ∧
    (storeBytes oneRecord).length = 43 ∧
    entryAt (mmapReaderAt (storeBytes oneRecord)) 21 buf128 = .panic .sliceBounds ∧
    search 43 (mmapReaderAt (storeBytes oneRecord)) buf128 key5A = .panic .sliceBounds ∧
    checkPasswords none none (storeBytes oneRecord) none [(key5A, "pw")] =
      .panic .sliceBounds ∧
    WellFormed twoRecords ∧ Sorted twoRecords ∧ MaxLine 64 twoRecords ∧
    (storeBytes twoRecords).length = 91 ∧
    search 91 (mmapReaderAt (storeBytes twoRecords)) buf128 key5A = .panic .sliceBounds ∧
    search 91 (mmapReaderAt (storeBytes twoRecords)) buf128 keyA8 = .panic .sliceBounds := by
  decide!

set_option maxRecDepth 100000 in
/-- C2, as a defect of the code. The claim asks that a query above every key makes
`search` return the file size and the lookup report "not found". On the
three-record fixture the query `FFFFFFFFFFFFFFFFFFFFFFFFFFFFFFFFFFFFFFFF` is above
every key, and `search` does not return: after the probe at offset 65 it probes
offset 98, inside the last record, where `entryAt` panics at `line[:-1]`; so does
`checkPasswords`. -/
theorem C2_query_above_all_keys_panics :
    bytesCompare key5A keyFF < 0 ∧ bytesCompare keyA8 keyFF < 0 ∧
    bytesCompare keyDD keyFF < 0 ∧ fixture.length = 131 ∧
    entryAt (mmapReaderAt fixture) 98 buf128 = .panic .sliceBounds ∧
    search 131 (mmapReaderAt fixture) buf128 keyFF = .panic .sliceBounds ∧
    checkPasswords none none fixture none [(keyFF, "pw")] = .panic .sliceBounds := by
  decide!

set_option maxRecDepth 100000 in
/-- C3. On the three-record fixture (131 bytes) with the 128-byte buffer, `search` for
`00000000A8DAE4228F821FB418F59826079BF368` returns offset 1 and no error, `entryAt` at
that offset yields that key and the count bytes `2`, these parse to the integer 2, and
`checkPasswords` maps the label to 2. -/
theorem C3_fixture_lookup_yields_two :
    fixture.length = 131 ∧
    search 131 (mmapReaderAt fixture) buf128 keyA8 = .ret (1, none) ∧
    (searchRun 131 (mmapReaderAt fixture) buf128 keyA8 >>= fun x =>
      entryAt (mmapReaderAt fixture) (x.1 : Int) x.2.buf) =
        .ret (keyA8, asciiBytes "2", none) ∧
    Atoi (asciiBytes "2") = .ok 2 ∧
    checkPasswords none none fixture none [(keyA8, "pw")] = .ret (some [("pw", 2)], none) := by
  decide!

set_option maxRecDepth 100000 in
/-- C4, as a defect of the code. The claim asks that the lookup of a key that is in no
record completes without error and leaves no entry. On the three-record fixture the
key `5BAA61E4C9B93F3F0682250B6CF8331B7EE68FD8` (the digest of `password`) is in no
record, and the lookup loop does not complete: the search probes offset 98, inside
the last record, and `entryAt` panics there. -/
theorem C4_absent_key_lookup_panics :
    WellFormed fixtureRecs ∧ Sorted fixtureRecs ∧ MaxLine 64 fixtureRecs ∧
    storeBytes fixtureRecs = fixture ∧ keyPassword.length = 40 ∧
    keyPassword ≠ key5A ∧ keyPassword ≠ keyA8 ∧ keyPassword ≠ keyDD ∧
    lookupLoop fixture.length (mmapReaderAt fixture) [(keyPassword, "password")] buf128 [] =
      .panic .sliceBounds ∧
    checkPasswords none none fixture none [(keyPassword, "password")] =
      .panic .sliceBounds := by
  decide!

/-- C5. Lower-bound property: over a well-formed sorted store whose lines fit twice in
the buffer, if `search` returns the offset `t`, then every record whose start offset is
below `t` has a key strictly below the query. -/
theorem C5_search_lower_bound (rs : List Rec) (m : Nat) (buf query : List Nat) (t : Nat)
    (e : Option Error) (hwf : WellFormed rs) (hs : Sorted rs) (hmax : MaxLine m rs)
    (hbuf : 2 * m ≤ buf.length) (hsz : (storeBytes rs).length < 2 ^ 63)
    (h : search (storeBytes rs).length (mmapReaderAt (storeBytes rs)) buf query = .ret (t, e))
    (k : Nat) (hk : k < rs.length) (hlt : startOff rs k < t) :
    bytesCompare (rs.get ⟨k, hk⟩).key query < 0 := by
  obtain ⟨st, hst, _⟩ := search_eq_ret h
  exact searchRun_lower_bound hwf hs hmax hsz hbuf hst hk hlt

set_option maxRecDepth 100000 in
/-- The lower-bound property at the fixture: the search for the third key returns
offset 44, and the second record, which starts at 43, has a smaller key. -/
theorem C5_search_lower_bound_witness :
    search (storeBytes fixtureRecs).length (mmapReaderAt (storeBytes fixtureRecs)) buf128 keyDD =
      .ret (44, none) ∧
    startOff fixtureRecs 1 = 43 ∧
    bytesCompare (fixtureRecs.get ⟨1, by decide⟩).key keyDD < 0 :=
  ⟨by decide!, by decide!,
    C5_search_lower_bound fixtureRecs 64 buf128 keyDD 44 none (by decide!) (by decide!)
      (by decide!) (by decide!) (by decide!) (by decide!) 1 (by decide) (by decide!)⟩

set_option maxRecDepth 100000 in
/-- C7, the claim as stated fails. On the three-record fixture the search for the second
key returns offset 1, while the first record whose key is at or above the query, the
second record, starts at offset 43: the returned offset is no record boundary. -/
theorem C7_counterexample :
    WellFormed fixtureRecs ∧ Sorted fixtureRecs ∧ MaxLine 64 fixtureRecs ∧
    search (storeBytes fixtureRecs).length (mmapReaderAt (storeBytes fixtureRecs)) buf128 keyA8 =
      .ret (1, none) ∧
    0 < bytesCompare keyA8 (fixtureRecs.get ⟨0, by decide⟩).key ∧
    bytesCompare keyA8 (fixtureRecs.get ⟨1, by decide⟩).key ≤ 0 ∧
    startOff fixtureRecs 1 = 43 ∧
    search (storeBytes fixtureRecs).length (mmapReaderAt (storeBytes fixtureRecs)) buf128 keyA8 ≠
      .ret (startOff fixtureRecs 1, none) := by
  decide!

/-- C7, amended. Over a well-formed sorted store whose lines fit twice in the buffer and
for a query at or below some key, an offset `t` returned by `search` locates the first
record whose key is at or above the query (record `k`): `t` is after the start of every
earlier record and at or before the start of record `k`, and `entryAt` at `t` yields
record `k`. -/
theorem C7_search_offset_locates_first_ge (rs : List Rec) (m : Nat) (buf query : List Nat)
    (t : Nat) (e : Option Error) (hwf : WellFormed rs) (hs : Sorted rs) (hmax : MaxLine m rs)
    (hbuf : 2 * m ≤ buf.length) (hsz : (storeBytes rs).length < 2 ^ 63)
    (hq : ∃ r, r ∈ rs ∧ bytesCompare query r.key ≤ 0)
    (h : search (storeBytes rs).length (mmapReaderAt (storeBytes rs)) buf query = .ret (t, e)) :
    ∃ k, ∃ hk : k < rs.length,
      bytesCompare query (rs.get ⟨k, hk⟩).key ≤ 0 ∧
      (∀ j, ∀ hj : j < rs.length, j < k → bytesCompare (rs.get ⟨j, hj⟩).key query < 0) ∧
      (∀ j, j < k → startOff rs j < t) ∧ t ≤ startOff rs k ∧
      ∀ buf1 : List Nat, buf1.length = buf.length →
        entryAt (mmapReaderAt (storeBytes rs)) (t : Int) buf1 =
          .ret ((rs.get ⟨k, hk⟩).key, trimSpace (rs.get ⟨k, hk⟩).count, none) := by
  obtain ⟨st, hst, _⟩ := search_eq_ret h
  have hne : rs ≠ [] := by
    obtain ⟨r, hr, _⟩ := hq
    exact List.ne_nil_of_mem hr
  obtain ⟨k, hk, h1, h2, h3, h4, _⟩ := searchRun_finds_first_ge hwf hs hmax hsz hbuf hne hst
  refine ⟨k, hk, h1, h2, h4, h3, ?_⟩
  intro buf1 hb
  exact entryAt_locates hwf hmax buf1 (by omega) hk h3 h4

set_option maxRecDepth 100000 in
/-- The amended C7 at the fixture and the query `00000000A8DAE4228F821FB418F59826079BF368`,
which is the key of the second record. -/
theorem C7_search_offset_locates_first_ge_witness :
    ∃ k, ∃ hk : k < fixtureRecs.length,
      bytesCompare keyA8 (fixtureRecs.get ⟨k, hk⟩).key ≤ 0 ∧
      (∀ j, ∀ hj : j < fixtureRecs.length, j < k →
        bytesCompare (fixtureRecs.get ⟨j, hj⟩).key keyA8 < 0) ∧
      (∀ j, j < k → startOff fixtureRecs j < 1) ∧ 1 ≤ startOff fixtureRecs k ∧
      ∀ buf1 : List Nat, buf1.length = buf128.length →
        entryAt (mmapReaderAt (storeBytes fixtureRecs)) ((1 : Nat) : Int) buf1 =
          .ret ((fixtureRecs.get ⟨k, hk⟩).key, trimSpace (fixtureRecs.get ⟨k, hk⟩).count, none) :=
  C7_search_offset_locates_first_ge fixtureRecs 64 buf128 keyA8 1 none (by decide!) (by decide!)
    (by decide!) (by decide!) (by decide!)
    ⟨fixtureRecs.get ⟨1, by decide⟩, by decide!, by decide!⟩ (by decide!)

set_option maxRecDepth 100000 in
/-- C8, as a defect of the code. The claim asks that `entryAt` returns a non-nil error
when the bytes read hold no newline or no colon. It returns none: reading `ab`, newline,
`cd`, newline (no colon) with the 128-byte buffer succeeds with `io.EOF`, and `entryAt`
panics at `pieces[1]`; reading `0123456789` (neither newline nor colon) it panics at
`line[:-1]`; and at offset 127 of the three-record fixture, where the bytes read are
`630` and a newline, without a colon, it panics at `line[:-1]` as well. -/
theorem C8_missing_separator_panics_at_inputs :
    colon ∉ asciiBytes "ab\ncd\n" ∧
    mmapReaderAt (asciiBytes "ab\ncd\n") 128 0 = (asciiBytes "ab\ncd\n", some Error.eof) ∧
    entryAt (mmapReaderAt (asciiBytes "ab\ncd\n")) 0 buf128 = .panic .indexRange ∧
    newline ∉ asciiBytes "0123456789" ∧ colon ∉ asciiBytes "0123456789" ∧
    mmapReaderAt (asciiBytes "0123456789") 128 0 = (asciiBytes "0123456789", some Error.eof) ∧
    entryAt (mmapReaderAt (asciiBytes "0123456789")) 0 buf128 = .panic .sliceBounds ∧
    mmapReaderAt fixture 128 127 = (asciiBytes "630\n", some Error.eof) ∧
    colon ∉ asciiBytes "630\n" ∧
    entryAt (mmapReaderAt fixture) 127 buf128 = .panic .sliceBounds :=
  ⟨by decide!, by decide!, by decide!, by decide!, by decide!, by decide!, by decide!,
    by decide!, by decide!, by decide!⟩

/-- Whenever the read itself succeeds (no error, or `io.EOF`) and the bytes read hold no
newline byte or no colon byte, `entryAt` panics, with a slice bound or an index out of
range: no path of it returns a format error. -/
theorem entryAt_missing_separator_panics (r : ReaderAt) (i : Int) (buf : List Nat)
    (herr : (r buf.length i).2 = none ∨ (r buf.length i).2 = some Error.eof)
    (hlen : (r buf.length i).1.length ≤ buf.length)
    (hmiss : newline ∉ (r buf.length i).1 ∨ colon ∉ (r buf.length i).1) :
    ∃ p, entryAt r i buf = .panic p := by
  rw [entryAt_of_read herr hlen]
  rcases hmiss with h | h
  · exact ⟨_, entryOfWindow_no_newline h⟩
  · exact entryOfWindow_no_colon h

set_option maxRecDepth 100000 in
/-- C9, as a defect of the code. The claim asks that `entryAt` at the start of a final
record without trailing newline returns that record. On the three-record fixture without
its final newline (130 bytes) the final record starts at offset 86; the read there is a
short read ending with `io.EOF`, which `entryAt` accepts, but the bytes read hold no
newline and `entryAt` panics at `line[:-1]`. So does the search for the second key,
whose first probe, at offset 65, skips to the final record, and so does the lookup of
the final key. -/
theorem C9_unterminated_final_record_panics_at_fixture :
    fixtureCut ++ [newline] = fixture ∧ fixtureCut.length = 130 ∧
    (storeBytes (fixtureRecs.take 2)).length = 86 ∧
    (mmapReaderAt fixtureCut 128 86).2 = some Error.eof ∧
    entryAt (mmapReaderAt fixtureCut) 86 buf128 = .panic .sliceBounds ∧
    probeOffsets 130 (mmapReaderAt fixtureCut) buf128 keyA8 = [65] ∧
    search 130 (mmapReaderAt fixtureCut) buf128 keyA8 = .panic .sliceBounds ∧
    checkPasswords none none fixtureCut none [(keyDD, "pw")] = .panic .sliceBounds :=
  ⟨by decide!, by decide!, by decide!, by decide!, by decide!, by decide!, by decide!,
    by decide!⟩

/-- In a store whose final record lacks the trailing newline, `entryAt` at the start
offset of that final record panics at `line[:-1]`: the bytes read, a short read cut at
the end of the file, hold no newline. -/
theorem entryAt_unterminated_final_record_panics (rs : List Rec) (r : Rec) (buf : List Nat)
    (hr : r.WellFormed) :
    entryAt (mmapReaderAt (storeBytes rs ++ (r.key ++ colon :: r.count)))
      ((storeBytes rs).length : Int) buf = .panic .sliceBounds := by
  rw [entryAt_mmap (by simp), List.drop_left]
  exact entryOfWindow_no_newline (fun hm => Rec.newline_not_mem hr (List.mem_of_mem_take hm))

set_option maxRecDepth 100000 in
/-- C10, the claim as stated fails. The count field `-3` is no unsigned decimal integer,
yet the lookup of its key stores the value -3 and returns no error; the count field
`9223372036854775808` is an unsigned decimal integer, yet the lookup of its key returns
an error and no map. -/
theorem C10_counterexample :
    unsignedDecimal (asciiBytes "-3") = false ∧
    (searchRun signedStore.length (mmapReaderAt signedStore) buf128 key5A >>= fun x =>
      entryAt (mmapReaderAt signedStore) (x.1 : Int) x.2.buf) =
        .ret (key5A, asciiBytes "-3", none) ∧
    checkPasswords none none signedStore none [(key5A, "pw")] = .ret (some [("pw", -3)], none) ∧
    unsignedDecimal (asciiBytes "9223372036854775808") = true ∧
    (searchRun bigStore.length (mmapReaderAt bigStore) buf128 key5A >>= fun x =>
      entryAt (mmapReaderAt bigStore) (x.1 : Int) x.2.buf) =
        .ret (key5A, asciiBytes "9223372036854775808", none) ∧
    checkPasswords none none bigStore none [(key5A, "pw")] =
      .ret (none, some Error.outOfRange) :=
  ⟨by decide!, by decide!, by decide!, by decide!, by decide!, by decide!⟩

end CheckPassword

namespace CheckPassword

set_option maxRecDepth 100000 in
theorem storeBytes_fixtureRecs : storeBytes fixtureRecs = fixture := by decide!

/-! ## The calls of `sort.Search` -/

theorem searchLoop_fuel_add {σ : Type} (f : σ → Nat → Outcome (Bool × σ)) (fuel i j : Nat)
    (s : σ) (hj : j < 2 ^ 63) (hf : j - i ≤ fuel) :
    ∀ extra, searchLoop f (fuel + extra) i j s = searchLoop f fuel i j s
  | 0 => rfl
  | extra + 1 => by
    rw [← Nat.add_assoc, searchLoop_fuel f (fuel + extra) i j s hj (by omega)]
    exact searchLoop_fuel_add f fuel i j s hj hf extra

/-- The loop calls the closure at most `k` times when the range holds fewer than
`2 ^ k` offsets. -/
theorem searchCalls_length_le {σ : Type} (f : σ → Nat → Outcome (Bool × σ)) :
    ∀ (fuel i j : Nat) (s : σ) (k : Nat), j < 2 ^ 63 → j - i < 2 ^ k →
      (searchCalls f fuel i j s).length ≤ k := by
  intro fuel
  induction fuel with
  | zero => intro i j s k _ _; simp [searchCalls]
  | succ n ih =>
    intro i j s k hj hk
    rw [searchCalls]
    by_cases hij : i < j
    · rw [if_pos hij, midpoint_eq hj hij]
      cases k with
      | zero => simp at hk; omega
      | succ k =>
        rw [pow_succ] at hk
        simp only [List.length_cons, Nat.add_le_add_iff_right]
        cases hfs : f s ((i + j) / 2) with
        | panic p => simp
        | ret a =>
          obtain ⟨b, s1⟩ := a
          cases b
          · simp only [Bool.not_false, if_true]
            exact ih _ _ _ _ hj (by omega)
          · simp only [Bool.not_true, Bool.false_eq_true, if_false]
            exact ih _ _ _ _ (by omega) (by omega)
    · rw [if_neg hij]; simp

/-- Every call of the loop is at an offset of the range `[i, j)`. -/
theorem searchCalls_offsets {σ : Type} (f : σ → Nat → Outcome (Bool × σ)) :
    ∀ (fuel i j : Nat) (s : σ), j < 2 ^ 63 →
      ∀ c, c ∈ searchCalls f fuel i j s → i ≤ c.1 ∧ c.1 < j := by
  intro fuel
  induction fuel with
  | zero => intro i j s _ c hc; simp [searchCalls] at hc
  | succ n ih =>
    intro i j s hj c hc
    rw [searchCalls] at hc
    by_cases hij : i < j
    · rw [if_pos hij, midpoint_eq hj hij] at hc
      rcases List.mem_cons.1 hc with rfl | hc
      · simp only; omega
      · cases hfs : f s ((i + j) / 2) with
        | panic p => rw [hfs] at hc; simp at hc
        | ret a =>
          obtain ⟨b, s1⟩ := a
          rw [hfs] at hc
          cases b
          · simp only [Bool.not_false, if_true] at hc
            have := ih _ _ _ hj c hc
            omega
          · simp only [Bool.not_true, Bool.false_eq_true, if_false] at hc
            have := ih _ _ _ (by omega) c hc
            omega
    · rw [if_neg hij] at hc; simp at hc

/-- An invariant of the captured variables that every call keeps holds before every
call of the loop. -/
theorem searchCalls_inv {σ : Type} (f : σ → Nat → Outcome (Bool × σ)) (Inv : σ → Prop)
    (hInv : ∀ s h b s1, Inv s → f s h = .ret (b, s1) → Inv s1) :
    ∀ (fuel i j : Nat) (s : σ), Inv s → ∀ c, c ∈ searchCalls f fuel i j s → Inv c.2 := by
  intro fuel
  induction fuel with
  | zero => intro i j s _ c hc; simp [searchCalls] at hc
  | succ n ih =>
    intro i j s hs c hc
    rw [searchCalls] at hc
    by_cases hij : i < j
    · rw [if_pos hij] at hc
      rcases List.mem_cons.1 hc with rfl | hc
      · exact hs
      · cases hfs : f s ((i + j) % 2 ^ 64 / 2) with
        | panic p => rw [hfs] at hc; simp at hc
        | ret a =>
          obtain ⟨b, s1⟩ := a
          rw [hfs] at hc
          have hs1 := hInv _ _ _ _ hs hfs
          cases b
          · simp only [Bool.not_false, if_true] at hc
            exact ih _ _ _ hs1 c hc
          · simp only [Bool.not_true, Bool.false_eq_true, if_false] at hc
            exact ih _ _ _ hs1 c hc
    · rw [if_neg hij] at hc; simp at hc

/-- A call that panics makes the loop panic. -/
theorem searchLoop_panic_of_call {σ : Type} (f : σ → Nat → Outcome (Bool × σ)) :
    ∀ (fuel i j : Nat) (s : σ) (c : Nat × σ) (p : Panic), c ∈ searchCalls f fuel i j s →
      f c.2 c.1 = .panic p → searchLoop f fuel i j s = .panic p := by
  intro fuel
  induction fuel with
  | zero => intro i j s c p hc; simp [searchCalls] at hc
  | succ n ih =>
    intro i j s c p hc hp
    rw [searchCalls] at hc
    rw [searchLoop]
    by_cases hij : i < j
    · rw [if_pos hij] at hc
      rw [if_pos hij]
      rcases List.mem_cons.1 hc with rfl | hc
      · simp only at hp
        simp only [hp]
      · cases hfs : f s ((i + j) % 2 ^ 64 / 2) with
        | panic q => rw [hfs] at hc; simp at hc
        | ret a =>
          obtain ⟨b, s1⟩ := a
          rw [hfs] at hc
          simp only [hfs]
          cases b
          · simp only [Bool.not_false, if_true] at hc ⊢
            exact ih _ _ _ c p hc hp
          · simp only [Bool.not_true, Bool.false_eq_true, if_false] at hc ⊢
            exact ih _ _ _ c p hc hp
    · rw [if_neg hij] at hc; simp at hc

/-- The calls behind a normal return `t` of the loop: unless `t = i`, a call at
`t - 1` answered `false`; unless `t = j`, a call at `t` answered `true`. -/
theorem searchLoop_ret_calls {σ : Type} (f : σ → Nat → Outcome (Bool × σ)) :
    ∀ (fuel i j : Nat) (s : σ) (t : Nat) (s' : σ), i ≤ j → j < 2 ^ 63 → j - i ≤ fuel →
      searchLoop f fuel i j s = .ret (t, s') →
      (t = i ∨ ∃ s0 s1, (t - 1, s0) ∈ searchCalls f fuel i j s ∧ 0 < t ∧
        f s0 (t - 1) = .ret (false, s1)) ∧
      (t = j ∨ ∃ s0 s1, (t, s0) ∈ searchCalls f fuel i j s ∧ f s0 t = .ret (true, s1)) := by
  intro fuel
  induction fuel with
  | zero =>
    intro i j s t s' hij _ hf heq
    simp only [searchLoop, Outcome.ret.injEq, Prod.mk.injEq] at heq
    exact ⟨Or.inl heq.1.symm, Or.inl (by omega)⟩
  | succ n ih =>
    intro i j s t s' hij hj hf heq
    rw [searchLoop] at heq
    rw [searchCalls]
    by_cases hlt : i < j
    · simp only [if_pos hlt] at heq ⊢
      have hm := midpoint_eq hj hlt
      rw [hm] at heq ⊢
      cases hfs : f s ((i + j) / 2) with
      | panic p => rw [hfs] at heq; simp at heq
      | ret a =>
        obtain ⟨b, s1⟩ := a
        rw [hfs] at heq
        simp only at heq ⊢
        cases b
        · simp only [Bool.not_false, if_true] at heq ⊢
          obtain ⟨h4, h5⟩ := ih _ _ _ _ _ (by omega) hj (by omega) heq
          constructor
          · rcases h4 with h4 | ⟨s0, s2, hm, ht, hp⟩
            · refine Or.inr ⟨s, s1, ?_, by omega, ?_⟩
              · rw [h4]; exact List.mem_cons_self _ _
              · rw [h4]; simpa using hfs
            · exact Or.inr ⟨s0, s2, List.mem_cons_of_mem _ hm, ht, hp⟩
          · rcases h5 with h5 | ⟨s0, s2, hm, hp⟩
            · exact Or.inl h5
            · exact Or.inr ⟨s0, s2, List.mem_cons_of_mem _ hm, hp⟩
        · simp only [Bool.not_true, Bool.false_eq_true, if_false] at heq ⊢
          obtain ⟨h4, h5⟩ := ih _ _ _ _ _ (by omega) (by omega) (by omega) heq
          constructor
          · rcases h4 with h4 | ⟨s0, s2, hm, ht, hp⟩
            · exact Or.inl h4
            · exact Or.inr ⟨s0, s2, List.mem_cons_of_mem _ hm, ht, hp⟩
          · rcases h5 with h5 | ⟨s0, s2, hm, hp⟩
            · refine Or.inr ⟨s, s1, ?_, ?_⟩
              · rw [h5]; exact List.mem_cons_self _ _
              · rw [h5]; exact hfs
            · exact Or.inr ⟨s0, s2, List.mem_cons_of_mem _ hm, hp⟩
    · simp only [if_neg hlt, Outcome.ret.injEq, Prod.mk.injEq] at heq
      exact ⟨Or.inl heq.1.symm, Or.inl (by omega)⟩

/-! ## The contents of the reused buffer do not matter -/

theorem sliceTo_copyInto_eq (p bs : List Nat) :
    sliceTo (copyInto p bs) (bs.length : Int) =
      if bs.length ≤ p.length then .ret bs else .panic .sliceBounds := by
  by_cases h : bs.length ≤ p.length
  · rw [if_pos h, sliceTo_copyInto h]
  · rw [if_neg h]
    unfold sliceTo
    rw [if_neg]
    rw [copyInto_length]
    omega

/-- The result of `entryAt` depends on the buffer through its length only. -/
theorem entryAt_buf_indep (r : ReaderAt) (i : Int) {buf buf' : List Nat}
    (h : buf.length = buf'.length) : entryAt r i buf = entryAt r i buf' := by
  unfold entryAt
  simp only [h, sliceTo_copyInto_eq]

theorem searchProbe_indep (r : ReaderAt) (query : List Nat) {s s' : SearchState} (h : Nat)
    (he : s.reterr = s'.reterr) (hl : s.buf.length = s'.buf.length) :
    (∃ p, searchProbe r query s h = .panic p ∧ searchProbe r query s' h = .panic p) ∨
    (∃ b s1 s1', searchProbe r query s h = .ret (b, s1) ∧
      searchProbe r query s' h = .ret (b, s1') ∧ s1.reterr = s1'.reterr ∧
      s1.buf.length = s1'.buf.length) := by
  unfold searchProbe
  rw [entryAt_buf_indep r (h : Int) hl]
  cases entryAt r (h : Int) s'.buf with
  | panic p => exact Or.inl ⟨p, rfl, rfl⟩
  | ret a =>
    obtain ⟨hash, cnt, err⟩ := a
    refine Or.inr ⟨_, _, _, rfl, rfl, ?_, ?_⟩
    · simp only [he]
    · simp only [bufferAfter_length, hl]

/-- Two runs of the loop of `search` from states that agree on `reterr` and on the
length of the buffer end alike: with the same panic, or with the same offset and
states that agree again. -/
theorem searchLoop_indep (r : ReaderAt) (query : List Nat) :
    ∀ (fuel i j : Nat) (s s' : SearchState), s.reterr = s'.reterr →
      s.buf.length = s'.buf.length →
      (∃ p, searchLoop (searchProbe r query) fuel i j s = .panic p ∧
        searchLoop (searchProbe r query) fuel i j s' = .panic p) ∨
      (∃ t st st', searchLoop (searchProbe r query) fuel i j s = .ret (t, st) ∧
        searchLoop (searchProbe r query) fuel i j s' = .ret (t, st') ∧
        st.reterr = st'.reterr ∧ st.buf.length = st'.buf.length) := by
  intro fuel
  induction fuel with
  | zero =>
    intro i j s s' he hl
    exact Or.inr ⟨i, s, s', rfl, rfl, he, hl⟩
  | succ n ih =>
    intro i j s s' he hl
    rw [searchLoop, searchLoop]
    by_cases hij : i < j
    · simp only [if_pos hij]
      rcases searchProbe_indep r query ((i + j) % 2 ^ 64 / 2) he hl with
        ⟨p, h1, h2⟩ | ⟨b, s1, s1', h1, h2, he1, hl1⟩
      · rw [h1, h2]
        exact Or.inl ⟨p, rfl, rfl⟩
      · rw [h1, h2]
        simp only
        cases b
        · simp only [Bool.not_false, if_true]
          exact ih _ _ _ _ he1 hl1
        · simp only [Bool.not_true, Bool.false_eq_true, if_false]
          exact ih _ _ _ _ he1 hl1
    · simp only [if_neg hij]
      exact Or.inr ⟨i, s, s', rfl, rfl, he, hl⟩

/-- Two such runs probe the same offsets. -/
theorem searchCalls_indep (r : ReaderAt) (query : List Nat) :
    ∀ (fuel i j : Nat) (s s' : SearchState), s.reterr = s'.reterr →
      s.buf.length = s'.buf.length →
      (searchCalls (searchProbe r query) fuel i j s).map Prod.fst =
        (searchCalls (searchProbe r query) fuel i j s').map Prod.fst := by
  intro fuel
  induction fuel with
  | zero => intro i j s s' _ _; rfl
  | succ n ih =>
    intro i j s s' he hl
    rw [searchCalls, searchCalls]
    by_cases hij : i < j
    · simp only [if_pos hij, List.map_cons, List.cons.injEq, true_and]
      rcases searchProbe_indep r query ((i + j) % 2 ^ 64 / 2) he hl with
        ⟨p, h1, h2⟩ | ⟨b, s1, s1', h1, h2, he1, hl1⟩
      · rw [h1, h2]
      · rw [h1, h2]
        simp only
        cases b
        · simp only [Bool.not_false, if_true]
          exact ih _ _ _ _ he1 hl1
        · simp only [Bool.not_true, Bool.false_eq_true, if_false]
          exact ih _ _ _ _ he1 hl1
    · simp only [if_neg hij]

theorem searchLoop_buf_length (r : ReaderAt) (query : List Nat) :
    ∀ (fuel i j : Nat) (s : SearchState) (t : Nat) (st : SearchState),
      searchLoop (searchProbe r query) fuel i j s = .ret (t, st) →
      st.buf.length = s.buf.length := by
  intro fuel
  induction fuel with
  | zero =>
    intro i j s t st h
    simp only [searchLoop, Outcome.ret.injEq, Prod.mk.injEq] at h
    rw [h.2]
  | succ n ih =>
    intro i j s t st h
    rw [searchLoop] at h
    by_cases hij : i < j
    · simp only [if_pos hij] at h
      cases hfs : searchProbe r query s ((i + j) % 2 ^ 64 / 2) with
      | panic p => rw [hfs] at h; simp at h
      | ret a =>
        obtain ⟨b, s1⟩ := a
        rw [hfs] at h
        simp only at h
        have hb := searchProbe_buf hfs
        cases b
        · simp only [Bool.not_false, if_true] at h
          rw [ih _ _ _ _ _ h, hb]
        · simp only [Bool.not_true, Bool.false_eq_true, if_false] at h
          rw [ih _ _ _ _ _ h, hb]
    · simp only [if_neg hij, Outcome.ret.injEq, Prod.mk.injEq] at h
      rw [h.2]

/-- The result of `search` depends on the buffer through its length only. -/
theorem search_buf_indep (size : Nat) (r : ReaderAt) (query : List Nat) {buf buf' : List Nat}
    (h : buf.length = buf'.length) : search size r buf query = search size r buf' query := by
  unfold search searchRun sortSearch
  rcases searchLoop_indep r query size 0 size { reterr := none, buf := buf }
      { reterr := none, buf := buf' } rfl h with ⟨p, h1, h2⟩ | ⟨t, st, st', h1, h2, he, _⟩
  · rw [h1, h2]
  · rw [h1, h2]
    simp only [Outcome.ret_bind, he]

/-! ## Where the first colon of a window is -/

theorem bytesIndex_cons_ne {x c : Nat} (xs : List Nat) (h : x ≠ c) :
    bytesIndex (x :: xs) c = if 0 ≤ bytesIndex xs c then bytesIndex xs c + 1 else -1 := by
  unfold bytesIndex
  rw [List.indexOf_cons_ne _ h]
  by_cases hm : List.indexOf c xs < xs.length
  · rw [if_pos hm, if_pos (by simpa using hm), if_pos (by omega)]
    simp
  · rw [if_neg hm, if_neg (by simpa using hm), if_neg (by omega)]

/-- When the first occurrence of a byte is at index `n`, the slice is `n` bytes without
it, the byte, and a rest. -/
theorem bytesIndex_decomp {c : Nat} : ∀ (s : List Nat) (n : Nat), bytesIndex s c = (n : Int) →
    ∃ a t, s = a ++ c :: t ∧ c ∉ a ∧ a.length = n
  | [], n, h => by
    rw [bytesIndex_of_not_mem (by simp)] at h
    omega
  | x :: xs, n, h => by
    by_cases hx : x = c
    · subst hx
      have h0 := bytesIndex_append_cons (a := []) (c := x) xs (by simp)
      simp only [List.nil_append, List.length_nil] at h0
      rw [h0] at h
      exact ⟨[], xs, rfl, by simp, by exact_mod_cast h⟩
    · rw [bytesIndex_cons_ne xs hx] at h
      by_cases hpos : 0 ≤ bytesIndex xs c
      · rw [if_pos hpos] at h
        obtain ⟨m, rfl⟩ : ∃ m, n = m + 1 := ⟨n - 1, by omega⟩
        have hm : bytesIndex xs c = (m : Int) := by push_cast at h; omega
        obtain ⟨a, t, rfl, hc, hl⟩ := bytesIndex_decomp xs m hm
        refine ⟨x :: a, t, rfl, ?_, by simp [hl]⟩
        simp only [List.mem_cons, not_or]
        exact ⟨fun hcx => hx hcx.symm, hc⟩
      · rw [if_neg hpos] at h
        omega

/-- A first occurrence at index `n` in a prefix is a first occurrence at `n` in the
whole slice. -/
theorem bytesIndex_of_take {l : List Nat} {c b n : Nat}
    (h : bytesIndex (l.take b) c = (n : Int)) : bytesIndex l c = (n : Int) := by
  obtain ⟨a, t, ht, hc, hl⟩ := bytesIndex_decomp _ _ h
  have : l = a ++ c :: (t ++ l.drop b) := by
    conv_lhs => rw [← List.take_append_drop b l, ht]
    simp
  rw [this, bytesIndex_append_cons _ hc, hl]

theorem colon_not_mem_take_storeBytes {rs : List Rec} (hwf : WellFormed rs) :
    colon ∉ (storeBytes rs).take 40 := by
  cases rs with
  | nil => simp [storeBytes]
  | cons r rest =>
    have hr := hwf r (List.mem_cons_self _ _)
    rw [storeBytes_cons, Rec.encode_eq, List.take_append_of_le_length (by rw [hr.1]),
      List.take_of_length_le (by rw [hr.1])]
    exact hr.2.1

theorem WellFormed.drop {rs : List Rec} (hwf : WellFormed rs) (k : Nat) :
    WellFormed (rs.drop k) := fun r hr => hwf r (List.mem_of_mem_drop hr)

/-- At the start of a record the first colon of the bytes read is at index 40. -/
theorem colon_index_record_start {rs : List Rec} (hwf : WellFormed rs) {k : Nat}
    (hk : k < rs.length) {b : Nat} (hb : 41 ≤ b) :
    bytesIndex (((storeBytes rs).drop (startOff rs k)).take b) colon = 40 := by
  have hr := hwf _ (List.get_mem rs k hk)
  have h1 : (storeBytes rs).drop (startOff rs k) =
      ((rs.get ⟨k, hk⟩).key ++ [colon]) ++
        ((rs.get ⟨k, hk⟩).count ++ newline :: storeBytes (rs.drop (k + 1))) := by
    rw [drop_startOff_get hk, Rec.encode_eq]; simp
  rw [h1, take_window _ (by rw [List.length_append, hr.1]; simpa using hb),
    List.append_assoc, List.singleton_append,
    bytesIndex_append_cons _ hr.2.1, hr.1]
  rfl

/-- Inside a record the first colon of the bytes read is not at index 40. -/
theorem colon_index_mid_record {rs : List Rec} (hwf : WellFormed rs) {k : Nat}
    (hk : k < rs.length) {d : Nat} (hd : 0 < d) (hd2 : d < (rs.get ⟨k, hk⟩).encode.length)
    (b : Nat) :
    bytesIndex (((storeBytes rs).drop (startOff rs k + d)).take b) colon ≠ 40 := by
  have hr := hwf _ (List.get_mem rs k hk)
  intro h
  have h2 := bytesIndex_of_take (n := 40) (by exact_mod_cast h)
  rw [drop_startOff_add hk, Nat.sub_eq_zero_of_le (le_of_lt hd2), List.drop_zero,
    Rec.encode_drop _ hd2, List.append_assoc, List.singleton_append] at h2
  exact fragment_colon_ne hd hr.1 hr.2.1 hr.2.2.2.1
    (colon_not_mem_take_storeBytes (hwf.drop (k + 1))) (by exact_mod_cast h2)

/-- An offset within the file that starts no record lies inside a record. -/
theorem mid_record_of_not_start (rs : List Rec) {i : Nat} (hi : i < (storeBytes rs).length)
    (hns : ¬ ∃ k, k < rs.length ∧ i = startOff rs k) :
    ∃ k, ∃ hk : k < rs.length, ∃ d, i = startOff rs k + d ∧ 0 < d ∧
      d < (rs.get ⟨k, hk⟩).encode.length := by
  obtain ⟨k, hk, hle, hleast⟩ := exists_first_at_or_after rs (le_of_lt hi)
  cases k with
  | zero =>
    exfalso
    rw [startOff_zero] at hle
    have hpos : 0 < rs.length := by
      rcases Nat.eq_zero_or_pos rs.length with h0 | h0
      · have hnil : rs = [] := List.length_eq_zero.1 h0
        subst hnil
        simp [storeBytes] at hi
      · exact h0
    exact hns ⟨0, hpos, by rw [startOff_zero]; omega⟩
  | succ k =>
    have hk0 : k < rs.length := by omega
    have hlt := hleast k (by omega)
    have hs := startOff_succ hk0
    have hne : i ≠ startOff rs (k + 1) := by
      intro heq
      rcases Nat.lt_or_ge (k + 1) rs.length with h1 | h1
      · exact hns ⟨k + 1, h1, heq⟩
      · have : k + 1 = rs.length := by omega
        rw [this, startOff_length] at heq
        omega
    exact ⟨k, hk0, i - startOff rs k, by omega, by omega, by omega⟩

/-! ## Probes that cannot return, errors of probes -/

theorem Outcome.bind_eq_ret {α β : Type} {x : Outcome α} {f : α → Outcome β} {b : β}
    (h : (x >>= f) = Outcome.ret b) : ∃ a, x = Outcome.ret a ∧ f a = Outcome.ret b := by
  cases x with
  | ret a => exact ⟨a, rfl, h⟩
  | panic p => simp at h

/-- What `entryAt` returns from a window carries no error. -/
theorem entryOfWindow_err {w hash cnt : List Nat} {err : Option Error}
    (h : entryOfWindow w = .ret (hash, cnt, err)) : err = none := by
  unfold entryOfWindow at h
  obtain ⟨_, _, h⟩ := Outcome.bind_eq_ret h
  obtain ⟨_, _, h⟩ := Outcome.bind_eq_ret h
  obtain ⟨_, _, h⟩ := Outcome.bind_eq_ret h
  obtain ⟨_, _, h⟩ := Outcome.bind_eq_ret h
  simp only [Outcome.ret.injEq, Prod.mk.injEq] at h
  exact h.2.2.symm

/-- Over a mapped file and within it, `entryAt` returns no error. -/
theorem entryAt_mmap_err {data : List Nat} {h : Nat} (hh : h ≤ data.length) {buf hash cnt : List Nat}
    {err : Option Error} (he : entryAt (mmapReaderAt data) (h : Int) buf = .ret (hash, cnt, err)) :
    err = none := by
  rw [entryAt_mmap hh] at he
  exact entryOfWindow_err he

/-- An error that `entryAt` returns is the error of the read, and it is not `io.EOF`;
the slices returned with it are `nil`. -/
theorem entryAt_err {r : ReaderAt} {i : Int} {buf hash cnt : List Nat} {e : Error}
    (h : entryAt r i buf = .ret (hash, cnt, some e)) :
    (r buf.length i).2 = some e ∧ e ≠ Error.eof ∧ hash = [] ∧ cnt = [] := by
  unfold entryAt at h
  by_cases hc : (r buf.length i).2 ≠ none ∧ (r buf.length i).2 ≠ some Error.eof
  · simp only [if_pos hc, Outcome.ret.injEq, Prod.mk.injEq] at h
    refine ⟨h.2.2, ?_, h.1.symm, h.2.1.symm⟩
    intro he
    rw [h.2.2, he] at hc
    exact hc.2 rfl
  · simp only [if_neg hc] at h
    obtain ⟨_, _, h⟩ := Outcome.bind_eq_ret h
    have := entryOfWindow_err h
    simp at this

/-- A window of at most one byte makes `entryAt` panic at `line[:-1]`. -/
theorem entryOfWindow_short {w : List Nat} (h : w.length ≤ 1) :
    entryOfWindow w = .panic .sliceBounds := by
  by_cases hn : newline ∈ w
  · cases w with
    | nil => simp at hn
    | cons x xs =>
      cases xs with
      | nil =>
        have hx : x = newline := (List.mem_singleton.1 hn).symm
        subst hx
        exact entryOfWindow_last_fragment (List.not_mem_nil _) (by decide)
      | cons y ys => simp at h
  · exact entryOfWindow_no_newline hn

/-- The probe at the last byte of a mapped file panics. -/
theorem entryAt_last_byte {data : List Nat} (hne : data ≠ []) (buf : List Nat) :
    entryAt (mmapReaderAt data) ((data.length - 1 : Nat) : Int) buf = .panic .sliceBounds := by
  have hpos : 0 < data.length := List.length_pos.2 hne
  rw [entryAt_mmap (by omega)]
  apply entryOfWindow_short
  rw [List.length_take, List.length_drop]
  omega

/-- A probe after the start of a final record that lacks its newline, up to the end of
the file, panics: the bytes read hold no newline. -/
theorem entryAt_past_last_unterminated (rs : List Rec) {r : Rec} (hr : r.WellFormed) {i : Nat}
    (h1 : (storeBytes rs).length ≤ i)
    (h2 : i ≤ (storeBytes rs ++ (r.key ++ colon :: r.count)).length) (buf : List Nat) :
    entryAt (mmapReaderAt (storeBytes rs ++ (r.key ++ colon :: r.count))) (i : Int) buf =
      .panic .sliceBounds := by
  rw [entryAt_mmap h2, List.drop_append_eq_append_drop, List.drop_of_length_le h1,
    List.nil_append]
  exact entryOfWindow_no_newline (fun hm =>
    Rec.newline_not_mem hr (List.mem_of_mem_drop (List.mem_of_mem_take hm)))

theorem searchProbe_panic {r : ReaderAt} {i : Nat} {p : Panic}
    (h : ∀ buf : List Nat, entryAt r (i : Int) buf = .panic p) (query : List Nat)
    (s : SearchState) : searchProbe r query s i = .panic p := by
  unfold searchProbe
  rw [h s.buf]

/-- A search that probes an offset at which `entryAt` panics, whatever the buffer
holds, panics. -/
theorem search_panic_of_probe {size : Nat} {r : ReaderAt} {buf query : List Nat} {i : Nat}
    {p : Panic} (hi : i ∈ probeOffsets size r buf query)
    (h : ∀ b : List Nat, entryAt r (i : Int) b = .panic p) :
    search size r buf query = .panic p := by
  unfold probeOffsets searchProbes at hi
  obtain ⟨c, hc, rfl⟩ := List.mem_map.1 hi
  have := searchLoop_panic_of_call (searchProbe r query) size 0 size _ c p hc
    (searchProbe_panic h query c.2)
  unfold search searchRun sortSearch
  rw [this]
  rfl

/-- What a probe of `search` that returns has done: it called `entryAt`, compared the
query with the hash returned, and kept the error, if any, in `reterr`. -/
theorem searchProbe_ret {r : ReaderAt} {query : List Nat} {s s1 : SearchState} {i : Nat}
    {b : Bool} (h : searchProbe r query s i = .ret (b, s1)) :
    ∃ hash cnt err, entryAt r (i : Int) s.buf = .ret (hash, cnt, err) ∧
      b = decide (bytesCompare query hash ≤ 0) ∧
      s1.reterr = (if err ≠ none then err else s.reterr) := by
  unfold searchProbe at h
  cases he : entryAt r (i : Int) s.buf with
  | panic p => rw [he] at h; simp at h
  | ret a =>
    obtain ⟨hash, cnt, err⟩ := a
    rw [he] at h
    simp only [Outcome.ret.injEq, Prod.mk.injEq] at h
    exact ⟨hash, cnt, err, rfl, h.1.symm, by rw [← h.2]⟩

/-- At a normal return of the loop of `search`, `reterr` is non-nil exactly when it was
so at the start or some call of `entryAt` made by the loop returned an error. -/
theorem searchLoop_reterr (r : ReaderAt) (query : List Nat) :
    ∀ (fuel i j : Nat) (s : SearchState) (t : Nat) (st : SearchState),
      searchLoop (searchProbe r query) fuel i j s = .ret (t, st) →
      (st.reterr ≠ none ↔ s.reterr ≠ none ∨
        ∃ c, c ∈ searchCalls (searchProbe r query) fuel i j s ∧
          ∃ hash cnt e, entryAt r (c.1 : Int) c.2.buf = .ret (hash, cnt, some e)) := by
  intro fuel
  induction fuel with
  | zero =>
    intro i j s t st h
    simp only [searchLoop, Outcome.ret.injEq, Prod.mk.injEq] at h
    rw [← h.2]
    simp [searchCalls]
  | succ n ih =>
    intro i j s t st h
    rw [searchLoop] at h
    rw [searchCalls]
    by_cases hij : i < j
    · simp only [if_pos hij] at h ⊢
      cases hfs : searchProbe r query s ((i + j) % 2 ^ 64 / 2) with
      | panic p => rw [hfs] at h; simp at h
      | ret a =>
        obtain ⟨b, s1⟩ := a
        rw [hfs] at h
        obtain ⟨hash, cnt, err, he, _, hre⟩ := searchProbe_ret hfs
        have key : ∀ l : List (Nat × SearchState),
            (st.reterr ≠ none ↔ s1.reterr ≠ none ∨ ∃ c, c ∈ l ∧
              ∃ hash cnt e, entryAt r (c.1 : Int) c.2.buf = .ret (hash, cnt, some e)) →
            (st.reterr ≠ none ↔ s.reterr ≠ none ∨
              ∃ c, c ∈ (((i + j) % 2 ^ 64 / 2, s) :: l) ∧
                ∃ hash cnt e, entryAt r (c.1 : Int) c.2.buf = .ret (hash, cnt, some e)) := by
          intro l hl
          rw [hl]
          constructor
          · rintro (h1 | ⟨c, hc, hx⟩)
            · cases err with
              | none =>
                rw [hre] at h1
                exact Or.inl (by simpa using h1)
              | some e =>
                exact Or.inr ⟨_, List.mem_cons_self _ _, hash, cnt, e, he⟩
            · exact Or.inr ⟨c, List.mem_cons_of_mem _ hc, hx⟩
          · rintro (h1 | ⟨c, hc, hash', cnt', e, hx⟩)
            · left
              rw [hre]
              cases err with
              | none => simpa using h1
              | some e => simp
            · rcases List.mem_cons.1 hc with rfl | hc
              · left
                simp only at hx
                rw [he] at hx
                simp only [Outcome.ret.injEq, Prod.mk.injEq] at hx
                rw [hre, hx.2.2]
                simp
              · exact Or.inr ⟨c, hc, hash', cnt', e, hx⟩
        simp only at h ⊢
        cases b
        · simp only [Bool.not_false, if_true] at h ⊢
          exact key _ (ih _ _ _ _ _ h)
        · simp only [Bool.not_true, Bool.false_eq_true, if_false] at h ⊢
          exact key _ (ih _ _ _ _ _ h)
    · simp only [if_neg hij, Outcome.ret.injEq, Prod.mk.injEq] at h ⊢
      rw [← h.2]
      simp

/-! ## The claims on the search as a whole -/

set_option maxRecDepth 100000 in
/-- C11, as a defect of the code. The claim asks that a query at or below the first key
of a non-empty well-formed sorted store makes `search` return offset 0. On the store with
the single record `000000005AD76BD555C1D6D771DE417A4B87E4B4:4` (43 bytes) the search for
that key, and the search for the smaller key of forty zeros, probe offset 21 first, inside
the last record, and panic at `line[:-1]`; on the two-record store (43 and 48 bytes) both
searches probe offset 45 first, inside the last record, and panic as well. On the
three-record fixture, whose first probe is at offset 65, the search for the key of forty
zeros does return offset 0. -/
theorem C11_query_at_or_below_first_key_panics :
    WellFormed oneRecord ∧ Sorted oneRecord ∧
    bytesCompare key5A (oneRecord.get ⟨0, by decide⟩).key ≤ 0 ∧
    bytesCompare key00 (oneRecord.get ⟨0, by decide⟩).key < 0 ∧
    probeOffsets 43 (mmapReaderAt (storeBytes oneRecord)) buf128 key00 = [21] ∧
    search 43 (mmapReaderAt (storeBytes oneRecord)) buf128 key00 = .panic .sliceBounds ∧
    probeOffsets 43 (mmapReaderAt (storeBytes oneRecord)) buf128 key5A = [21] ∧
    checkPasswords none none (storeBytes oneRecord) none [(key00, "pw")] =
      .panic .sliceBounds ∧
    WellFormed twoRecords ∧ Sorted twoRecords ∧
    probeOffsets 91 (mmapReaderAt (storeBytes twoRecords)) buf128 key00 = [45] ∧
    search 91 (mmapReaderAt (storeBytes twoRecords)) buf128 key00 = .panic .sliceBounds ∧
    search 131 (mmapReaderAt fixture) buf128 key00 = .ret (0, none) := by
  decide!

/-- For a search that returns: the error it returns is non-nil exactly when one of the
calls of `entryAt` made by its probes returned a non-nil error; such an error is the
error of the underlying read and is not `io.EOF`; `search` returns it together with the
offset, and the lookup loop of `checkPasswords` then returns that error, which
`checkPasswords` hands on with a nil map. -/
theorem search_error_iff_probe_error (size : Nat) (r : ReaderAt) (buf query : List Nat)
    (t : Nat) (e : Option Error) (h : search size r buf query = .ret (t, e)) :
    (e ≠ none ↔ ∃ c, c ∈ searchProbes size r buf query ∧
      ∃ hash cnt e1, entryAt r (c.1 : Int) c.2.buf = .ret (hash, cnt, some e1)) ∧
    (∀ (i : Int) (b hash cnt : List Nat) (e1 : Error),
      entryAt r i b = .ret (hash, cnt, some e1) → (r b.length i).2 = some e1 ∧ e1 ≠ Error.eof) ∧
    (∀ e1, e = some e1 → ∀ (pw : String) (rest : List (List Nat × String)) (m : ResultMap),
      lookupLoop size r ((query, pw) :: rest) buf m = .ret (.error e1)) ∧
    (∀ (data : List Nat) (closeErr : Option Error) (hashes : List (List Nat × String)) (e1 : Error),
      lookupLoop data.length (mmapReaderAt data) hashes buf128 [] = .ret (.error e1) →
      checkPasswords none none data closeErr hashes = .ret (none, some e1)) := by
  obtain ⟨st, hst, hre⟩ := search_eq_ret h
  refine ⟨?_, ?_, ?_, ?_⟩
  · have := searchLoop_reterr r query size 0 size _ t st hst
    rw [hre] at this
    simpa [searchProbes] using this
  · intro i b hash cnt e1 he
    exact ⟨(entryAt_err he).1, (entryAt_err he).2.1⟩
  · intro e1 he1 pw rest m
    rw [lookupLoop]
    subst he1
    simp only [hst, hre]
  · intro data closeErr hashes e1 hl
    simp only [checkPasswords, hl]

set_option maxRecDepth 100000 in
/-- At a reader over the fixture whose read at offset 32 fails, the search for the
second key returns offset 33 with that error, and a probe returned an error. -/
theorem search_error_iff_probe_error_at_flaky :
    search 131 flakyReader buf128 keyA8 = .ret (33, some (Error.io 5)) ∧
    ∃ c, c ∈ searchProbes 131 flakyReader buf128 keyA8 ∧
      ∃ hash cnt e1, entryAt flakyReader (c.1 : Int) c.2.buf = .ret (hash, cnt, some e1) :=
  ⟨by decide!,
    (search_error_iff_probe_error 131 flakyReader buf128 keyA8 33 (some (Error.io 5))
      (by decide!)).1.1 (by simp)⟩

set_option maxRecDepth 100000 in
/-- C13, the claim as stated fails. When every lookup succeeds and closing the store
fails, `checkPasswords` returns the populated map together with the error of
`Close`: on the fixture, the map with the count 2 and the error. -/
theorem C13_counterexample :
    checkPasswords none none fixture (some (Error.io 1)) [(keyA8, "pw")] =
      .ret (some [("pw", 2)], some (Error.io 1)) := by
  decide!

/-- C13, amended. Whenever `checkPasswords` returns a non-nil error from `os.Stat`, from
`mmap.Open`, from `search`, from `entryAt` or from parsing a count, the map it returns is
nil; only when all lookups succeeded and closing the store fails does it return a map,
the complete one, together with the error of `Close`. -/
theorem C13_map_nil_unless_close_error (statErr openErr : Option Error) (data : List Nat)
    (closeErr : Option Error) (hashes : List (List Nat × String)) (mo : Option ResultMap)
    (e : Error)
    (h : checkPasswords statErr openErr data closeErr hashes = .ret (mo, some e)) :
    mo = none ∨
    (statErr = none ∧ openErr = none ∧ closeErr = some e ∧ ∃ m, mo = some m ∧
      lookupLoop data.length (mmapReaderAt data) hashes buf128 [] = .ret (.ok m)) := by
  unfold checkPasswords at h
  cases statErr with
  | some e1 =>
    simp only [Outcome.ret.injEq, Prod.mk.injEq] at h
    exact Or.inl h.1.symm
  | none =>
    cases openErr with
    | some e1 =>
      simp only [Outcome.ret.injEq, Prod.mk.injEq] at h
      exact Or.inl h.1.symm
    | none =>
      simp only at h
      cases hl : lookupLoop data.length (mmapReaderAt data) hashes buf128 [] with
      | panic p => rw [hl] at h; simp at h
      | ret x =>
        rw [hl] at h
        cases x with
        | error e1 =>
          simp only [Outcome.ret.injEq, Prod.mk.injEq] at h
          exact Or.inl h.1.symm
        | ok m =>
          simp only [Outcome.ret.injEq, Prod.mk.injEq] at h
          exact Or.inr ⟨rfl, rfl, h.2, m, h.1.symm, rfl⟩

set_option maxRecDepth 100000 in
/-- The amended C13 at a failing `os.Stat`: the map returned is nil. -/
theorem C13_map_nil_unless_close_error_witness :
    checkPasswords (some (Error.io 2)) none fixture none [(keyA8, "pw")] =
      .ret (none, some (Error.io 2)) ∧
    ((none : Option ResultMap) = none ∨
      ((some (Error.io 2) : Option Error) = none ∧ (none : Option Error) = none ∧
        (none : Option Error) = some (Error.io 2) ∧ ∃ m, (none : Option ResultMap) = some m ∧
        lookupLoop fixture.length (mmapReaderAt fixture) [(keyA8, "pw")] buf128 [] =
          .ret (.ok m))) :=
  ⟨by decide!,
    C13_map_nil_unless_close_error (some (Error.io 2)) none fixture none [(keyA8, "pw")] none
      (Error.io 2) (by decide!)⟩

/-- C14. The results of `entryAt` and of `search`, and the offsets that `search`
probes, depend on the buffer through its length only, never on the bytes it held
before: two buffers of equal length give identical results, and so does the buffer
that an earlier search has left behind, so that a repeated query returns the same
result. -/
theorem C14_buffer_contents_irrelevant (size : Nat) (r : ReaderAt) (i : Int)
    (buf buf' query : List Nat) (hlen : buf.length = buf'.length) :
    entryAt r i buf = entryAt r i buf' ∧
    search size r buf query = search size r buf' query ∧
    probeOffsets size r buf query = probeOffsets size r buf' query ∧
    (∀ t st, searchRun size r buf query = .ret (t, st) →
      search size r st.buf query = search size r buf query ∧
      search size r (bufferAfter r (t : Int) st.buf) query = search size r buf query) := by
  refine ⟨entryAt_buf_indep r i hlen, search_buf_indep size r query hlen, ?_, ?_⟩
  · exact searchCalls_indep r query size 0 size _ _ rfl hlen
  · intro t st hst
    have hl := searchLoop_buf_length r query size 0 size _ t st hst
    exact ⟨search_buf_indep size r query hl,
      search_buf_indep size r query ((bufferAfter_length _ _ _).trans hl)⟩

set_option maxRecDepth 100000 in
/-- C14 at the fixture, for the zeroed buffer and a buffer filled with the byte 255. -/
theorem C14_buffer_contents_irrelevant_witness :
    entryAt (mmapReaderAt fixture) 41 (List.replicate 128 255) =
      .ret (keyA8, asciiBytes "2", none) ∧
    search 131 (mmapReaderAt fixture) buf128 keyA8 =
      search 131 (mmapReaderAt fixture) (List.replicate 128 255) keyA8 :=
  ⟨by decide!,
    (C14_buffer_contents_irrelevant 131 (mmapReaderAt fixture) 41 buf128
      (List.replicate 128 255) keyA8 (by decide)).2.1⟩

/-- C15. `search` ends after a logarithmic number of probes: for a size of at least 1 it
calls `entryAt` at most `floor(log2(size)) + 1` times, for size 0 it makes no probe and
returns 0 without error, and every probed offset lies in `[0, size)`. The loop ends by
itself: any number of iterations beyond `size` leaves the run unchanged. -/
theorem C15_search_probe_count (size : Nat) (r : ReaderAt) (buf query : List Nat)
    (hsz : size < 2 ^ 63) :
    (1 ≤ size → (probeOffsets size r buf query).length ≤ Nat.log 2 size + 1) ∧
    (size = 0 → probeOffsets size r buf query = [] ∧
      search size r buf query = .ret (0, none)) ∧
    (∀ i, i ∈ probeOffsets size r buf query → 0 ≤ i ∧ i < size) ∧
    (∀ extra, searchLoop (searchProbe r query) (size + extra) 0 size
      { reterr := none, buf := buf } = searchRun size r buf query) := by
  refine ⟨?_, ?_, ?_, ?_⟩
  · intro _
    unfold probeOffsets searchProbes
    rw [List.length_map]
    exact searchCalls_length_le _ _ _ _ _ _ hsz
      (by simpa using Nat.lt_pow_succ_log_self (by norm_num : 1 < 2) size)
  · intro h0
    subst h0
    exact ⟨rfl, rfl⟩
  · intro i hi
    unfold probeOffsets searchProbes at hi
    obtain ⟨c, hc, rfl⟩ := List.mem_map.1 hi
    exact ⟨Nat.zero_le _, (searchCalls_offsets _ _ _ _ _ hsz c hc).2⟩
  · intro extra
    exact searchLoop_fuel_add _ _ _ _ _ hsz (by omega) extra

set_option maxRecDepth 100000 in
/-- C15 at the fixture of 131 bytes: the search for the second key makes 8 probes, and
`floor(log2(131)) + 1 = 8`. -/
theorem C15_search_probe_count_witness :
    probeOffsets 131 (mmapReaderAt fixture) buf128 keyA8 = [65, 32, 16, 8, 4, 2, 1, 0] ∧
    Nat.log 2 131 + 1 = 8 ∧
    (probeOffsets 131 (mmapReaderAt fixture) buf128 keyA8).length ≤ Nat.log 2 131 + 1 :=
  ⟨by decide!, by norm_num [Nat.log],
    (C15_search_probe_count 131 (mmapReaderAt fixture) buf128 keyA8 (by norm_num)).1
      (by norm_num)⟩

/-- C16. Mid-record detection is exact on a well-formed store: for a buffer of at least
41 bytes and every offset within the file, the first colon of the bytes read is at
index 40 exactly when the offset is the start of a record; `entryAt` works on those
bytes, so it skips past the first newline exactly when the offset lies inside a record. -/
theorem C16_colon_at_40_iff_record_start (rs : List Rec) (buf : List Nat) (i : Nat)
    (hwf : WellFormed rs) (hbuf : 41 ≤ buf.length) (hi : i < (storeBytes rs).length) :
    (bytesIndex (mmapReaderAt (storeBytes rs) buf.length (i : Int)).1 colon =
        (hexEncodedLen sha1Size : Int) ↔ ∃ k, k < rs.length ∧ i = startOff rs k) ∧
    entryAt (mmapReaderAt (storeBytes rs)) (i : Int) buf =
      entryOfWindow (mmapReaderAt (storeBytes rs) buf.length (i : Int)).1 := by
  have hle : i ≤ (storeBytes rs).length := le_of_lt hi
  refine ⟨?_, ?_⟩
  · rw [mmapReaderAt_bytes hle]
    have h40 : ((hexEncodedLen sha1Size : Nat) : Int) = 40 := rfl
    rw [h40]
    constructor
    · intro h
      by_contra hns
      obtain ⟨k, hk, d, rfl, hd, hd2⟩ := mid_record_of_not_start rs hi hns
      exact colon_index_mid_record hwf hk hd hd2 _ h
    · rintro ⟨k, hk, rfl⟩
      exact colon_index_record_start hwf hk hbuf
  · rw [entryAt_mmap hle, mmapReaderAt_bytes hle]

set_option maxRecDepth 100000 in
/-- C16 at the fixture: offset 43 starts the second record, and the first colon of the
bytes read there is at index 40; offset 41 starts no record, and the first colon of
the bytes read there is at index 42. -/
theorem C16_colon_at_40_iff_record_start_witness :
    bytesIndex (mmapReaderAt (storeBytes fixtureRecs) buf128.length ((41 : Nat) : Int)).1 colon
      = 42 ∧
    (bytesIndex (mmapReaderAt (storeBytes fixtureRecs) buf128.length ((43 : Nat) : Int)).1 colon
      = (hexEncodedLen sha1Size : Int) ↔ ∃ k, k < fixtureRecs.length ∧ 43 = startOff fixtureRecs k) :=
  ⟨by decide!,
    (C16_colon_at_40_iff_record_start fixtureRecs buf128 43 (by decide!) (by decide)
      (by decide!)).1⟩

set_option maxRecDepth 100000 in
/-- C17, the claim as stated fails. With a reader every read of which fails, the first
probe of the search over 131 bytes, at offset 65, returns an error, and the search makes
six more calls of `entryAt` before it returns the file size and the error. -/
theorem C17_counterexample :
    entryAt failingReader 65 buf128 = .ret ([], [], some (Error.io 5)) ∧
    probeOffsets 131 failingReader buf128 keyA8 = [65, 98, 115, 123, 127, 129, 130] ∧
    search 131 failingReader buf128 keyA8 = .ret (131, some (Error.io 5)) := by
  decide!

/-- C17, amended. A failing probe does not abort the search: when the call of
`entryAt` at the midpoint of a non-empty range returns an error, the error is kept in
`reterr`, the comparison is made with a nil hash and answers `false` for a non-empty
query, and the loop goes on over the offsets after the failed probe, calling `entryAt`
again while that range is not empty; a search that returns after it returns a non-nil
error. -/
theorem C17_failing_probe_does_not_abort (r : ReaderAt) (query : List Nat) (fuel i j : Nat)
    (s : SearchState) (hash cnt : List Nat) (e : Error) (hij : i < j) (hj : j < 2 ^ 63)
    (hq : query ≠ [])
    (he : entryAt r (((i + j) / 2 : Nat) : Int) s.buf = .ret (hash, cnt, some e)) :
    searchLoop (searchProbe r query) (fuel + 1) i j s =
      searchLoop (searchProbe r query) fuel ((i + j) / 2 + 1) j
        { reterr := some e, buf := bufferAfter r (((i + j) / 2 : Nat) : Int) s.buf } ∧
    searchCalls (searchProbe r query) (fuel + 1) i j s =
      ((i + j) / 2, s) :: searchCalls (searchProbe r query) fuel ((i + j) / 2 + 1) j
        { reterr := some e, buf := bufferAfter r (((i + j) / 2 : Nat) : Int) s.buf } ∧
    ((i + j) / 2 + 1 < j → 0 < fuel →
      searchCalls (searchProbe r query) fuel ((i + j) / 2 + 1) j
        { reterr := some e, buf := bufferAfter r (((i + j) / 2 : Nat) : Int) s.buf } ≠ []) ∧
    (∀ t st, searchLoop (searchProbe r query) (fuel + 1) i j s = .ret (t, st) →
      st.reterr ≠ none) := by
  have hnil : hash = [] := (entryAt_err he).2.2.1
  have hcmp : decide (bytesCompare query hash ≤ 0) = false := by
    subst hnil
    cases query with
    | nil => exact absurd rfl hq
    | cons x xs => simp [bytesCompare]
  have hprobe : searchProbe r query s ((i + j) / 2) = .ret (false,
      { reterr := some e, buf := bufferAfter r (((i + j) / 2 : Nat) : Int) s.buf }) := by
    unfold searchProbe
    rw [he]
    simp only [hcmp]
    simp
  have hcalls : searchCalls (searchProbe r query) (fuel + 1) i j s =
      ((i + j) / 2, s) :: searchCalls (searchProbe r query) fuel ((i + j) / 2 + 1) j
        { reterr := some e, buf := bufferAfter r (((i + j) / 2 : Nat) : Int) s.buf } := by
    rw [searchCalls, if_pos hij, midpoint_eq hj hij]
    simp only [hprobe, Bool.not_false, if_true]
  refine ⟨?_, hcalls, ?_, ?_⟩
  · rw [searchLoop, if_pos hij, midpoint_eq hj hij]
    simp only [hprobe, Bool.not_false, if_true]
  · intro hlt hfuel
    obtain ⟨n, rfl⟩ : ∃ n, fuel = n + 1 := ⟨fuel - 1, by omega⟩
    rw [searchCalls, if_pos hlt]
    exact List.cons_ne_nil _ _
  · intro t st hret
    rw [searchLoop_reterr r query _ _ _ _ _ _ hret]
    refine Or.inr ⟨((i + j) / 2, s), ?_, hash, cnt, e, he⟩
    rw [hcalls]
    exact List.mem_cons_self _ _

set_option maxRecDepth 100000 in
/-- The amended C17 at the reader every read of which fails: after the failing probe at
offset 65 the search over 131 bytes goes on over the offsets from 66. -/
theorem C17_failing_probe_does_not_abort_witness :
    searchCalls (searchProbe failingReader keyA8) (130 + 1) 0 131
        { reterr := none, buf := buf128 } =
      ((0 + 131) / 2, { reterr := none, buf := buf128 }) ::
        searchCalls (searchProbe failingReader keyA8) 130 ((0 + 131) / 2 + 1) 131
          { reterr := some (Error.io 5),
            buf := bufferAfter failingReader (((0 + 131) / 2 : Nat) : Int) buf128 } :=
  (C17_failing_probe_does_not_abort failingReader keyA8 130 0 131
    { reterr := none, buf := buf128 } [] [] (Error.io 5) (by decide) (by norm_num)
    (by decide) (by decide!)).2.1

theorem startOff_append_last (rs : List Rec) (r : Rec) :
    startOff (rs ++ [r]) rs.length = (storeBytes rs).length := by
  unfold startOff
  rw [List.take_left]

/-- C18. In a non-empty well-formed store, whose final record `r` ends with a newline or
not, `entryAt` returns no record at any offset after the start of the final record and
at most the file size: it panics at `line[:-1]`. So a search that probes such an offset
does not return, and no search over a store of a single record returns. -/
theorem C18_probe_past_last_record_panics (rs : List Rec) (r : Rec) (buf query : List Nat)
    (i : Nat) (hwf : WellFormed (rs ++ [r])) (hi : (storeBytes rs).length < i)
    (hsz : (storeBytes (rs ++ [r])).length < 2 ^ 63) :
    (i ≤ (storeBytes (rs ++ [r])).length →
      entryAt (mmapReaderAt (storeBytes (rs ++ [r]))) (i : Int) buf = .panic .sliceBounds) ∧
    (i ≤ (storeBytes rs ++ (r.key ++ colon :: r.count)).length →
      entryAt (mmapReaderAt (storeBytes rs ++ (r.key ++ colon :: r.count))) (i : Int) buf =
        .panic .sliceBounds) ∧
    (i ∈ probeOffsets (storeBytes (rs ++ [r])).length (mmapReaderAt (storeBytes (rs ++ [r])))
        buf query →
      search (storeBytes (rs ++ [r])).length (mmapReaderAt (storeBytes (rs ++ [r]))) buf query =
        .panic .sliceBounds) ∧
    (i ∈ probeOffsets (storeBytes rs ++ (r.key ++ colon :: r.count)).length
        (mmapReaderAt (storeBytes rs ++ (r.key ++ colon :: r.count))) buf query →
      search (storeBytes rs ++ (r.key ++ colon :: r.count)).length
        (mmapReaderAt (storeBytes rs ++ (r.key ++ colon :: r.count))) buf query =
        .panic .sliceBounds) ∧
    (rs = [] →
      probeOffsets (storeBytes [r]).length (mmapReaderAt (storeBytes [r])) buf query =
        [(storeBytes [r]).length / 2] ∧
      search (storeBytes [r]).length (mmapReaderAt (storeBytes [r])) buf query =
        .panic .sliceBounds) := by
  have hr : r.WellFormed := hwf r (by simp)
  have hlast : ∀ (b : List Nat) (x : Nat), (storeBytes rs).length < x →
      x ≤ (storeBytes (rs ++ [r])).length →
      entryAt (mmapReaderAt (storeBytes (rs ++ [r]))) (x : Int) b = .panic .sliceBounds := by
    intro b x hx1 hx2
    exact entryAt_past_last hwf (k := rs.length) (by simp)
      (by rw [startOff_append_last]; exact hx1) hx2 b
  have hcut : ∀ (b : List Nat) (x : Nat), (storeBytes rs).length < x →
      x ≤ (storeBytes rs ++ (r.key ++ colon :: r.count)).length →
      entryAt (mmapReaderAt (storeBytes rs ++ (r.key ++ colon :: r.count))) (x : Int) b =
        .panic .sliceBounds := by
    intro b x hx1 hx2
    exact entryAt_past_last_unterminated rs hr (le_of_lt hx1) hx2 b
  have hlen : (storeBytes rs ++ (r.key ++ colon :: r.count)).length <
      (storeBytes (rs ++ [r])).length := by
    rw [storeBytes_append, storeBytes_cons, storeBytes_nil]
    simp [Rec.encode]
  refine ⟨fun h => hlast buf i hi h, fun h => hcut buf i hi h, ?_, ?_, ?_⟩
  · intro hp
    have hlt : i < (storeBytes (rs ++ [r])).length := by
      unfold probeOffsets searchProbes at hp
      obtain ⟨c, hc, rfl⟩ := List.mem_map.1 hp
      exact (searchCalls_offsets _ _ _ _ _ hsz c hc).2
    exact search_panic_of_probe hp (fun b => hlast b i hi (le_of_lt hlt))
  · intro hp
    have hlt : i < (storeBytes rs ++ (r.key ++ colon :: r.count)).length := by
      unfold probeOffsets searchProbes at hp
      obtain ⟨c, hc, rfl⟩ := List.mem_map.1 hp
      exact (searchCalls_offsets _ _ _ _ _ (by omega) c hc).2
    exact search_panic_of_probe hp (fun b => hcut b i hi (le_of_lt hlt))
  · intro hnil
    subst hnil
    have hsize : 2 ≤ (storeBytes [r]).length := by
      rw [storeBytes_cons, storeBytes_nil, List.append_nil, Rec.encode_length]
      omega
    have hpos : 0 < (storeBytes [r]).length / 2 := by omega
    have hmid : (storeBytes [r]).length / 2 ≤ (storeBytes [r]).length := Nat.div_le_self _ _
    have hpanic : ∀ b : List Nat,
        entryAt (mmapReaderAt (storeBytes [r])) (((storeBytes [r]).length / 2 : Nat) : Int) b =
          .panic .sliceBounds := by
      intro b
      have := hlast b ((storeBytes [r]).length / 2) (by simpa [storeBytes] using hpos)
        (by simpa using hmid)
      simpa using this
    have hprobes : probeOffsets (storeBytes [r]).length (mmapReaderAt (storeBytes [r])) buf query =
        [(storeBytes [r]).length / 2] := by
      unfold probeOffsets searchProbes
      obtain ⟨n, hn⟩ : ∃ n, (storeBytes [r]).length = n + 1 :=
        ⟨(storeBytes [r]).length - 1, by omega⟩
      have hsz' : (storeBytes [r]).length < 2 ^ 63 := by simpa using hsz
      have hm : (0 + (storeBytes [r]).length) % 2 ^ 64 / 2 = (storeBytes [r]).length / 2 := by
        rw [Nat.zero_add, Nat.mod_eq_of_lt (by omega)]
      generalize hN : (storeBytes [r]).length = N at *
      subst hn
      rw [searchCalls, if_pos (by omega), hm]
      simp only [searchProbe_panic hpanic, List.map_cons, List.map_nil]
    refine ⟨hprobes, search_panic_of_probe ?_ hpanic⟩
    rw [hprobes]
    exact List.mem_singleton_self _

set_option maxRecDepth 100000 in
/-- C18 at the fixture: offset 98 lies after the start (86) of its final record, the
search for `FFFFFFFFFFFFFFFFFFFFFFFFFFFFFFFFFFFFFFFF` probes it, and panics. -/
theorem C18_probe_past_last_record_panics_witness :
    (storeBytes (fixtureRecs.take 2)).length = 86 ∧
    98 ∈ probeOffsets (storeBytes (fixtureRecs.take 2 ++ [fixtureRecs.get ⟨2, by decide⟩])).length
      (mmapReaderAt (storeBytes (fixtureRecs.take 2 ++ [fixtureRecs.get ⟨2, by decide⟩])))
      buf128 keyFF ∧
    search (storeBytes (fixtureRecs.take 2 ++ [fixtureRecs.get ⟨2, by decide⟩])).length
      (mmapReaderAt (storeBytes (fixtureRecs.take 2 ++ [fixtureRecs.get ⟨2, by decide⟩])))
      buf128 keyFF = .panic .sliceBounds :=
  ⟨by decide!, by decide!,
    (C18_probe_past_last_record_panics (fixtureRecs.take 2) (fixtureRecs.get ⟨2, by decide⟩)
      buf128 keyFF 98 (by decide!) (by decide!) (by decide!)).2.2.1 (by decide!)⟩

theorem not_lt_and_ge {a b : List Nat} (h1 : bytesCompare a b < 0) (h2 : bytesCompare b a ≤ 0) :
    False := by
  rw [bytesCompare_swap a b] at h2
  omega

/-- C19. Over a well-formed sorted store whose lines fit twice in the buffer, if `search`
returns and record `k` is the first record whose key is at or above the query, then the
offset returned is 0 when `k = 0` and the start offset of record `k - 1` plus one
otherwise: `entryAt` at it yields record `k`, and at every smaller offset it yields an
earlier record, whose key is below the query. -/
theorem C19_search_exact_offset (rs : List Rec) (m : Nat) (buf query : List Nat) (t : Nat)
    (e : Option Error) (k : Nat) (hk : k < rs.length) (hwf : WellFormed rs) (hs : Sorted rs)
    (hmax : MaxLine m rs) (hbuf : 2 * m ≤ buf.length) (hsz : (storeBytes rs).length < 2 ^ 63)
    (h : search (storeBytes rs).length (mmapReaderAt (storeBytes rs)) buf query = .ret (t, e))
    (hge : bytesCompare query (rs.get ⟨k, hk⟩).key ≤ 0)
    (hfirst : ∀ j, ∀ hj : j < rs.length, j < k → bytesCompare (rs.get ⟨j, hj⟩).key query < 0) :
    (k = 0 → t = 0) ∧ (0 < k → t = startOff rs (k - 1) + 1) ∧
    (∀ b : List Nat, b.length = buf.length →
      entryAt (mmapReaderAt (storeBytes rs)) (t : Int) b =
        .ret ((rs.get ⟨k, hk⟩).key, trimSpace (rs.get ⟨k, hk⟩).count, none)) ∧
    (∀ i, i < t → ∀ b : List Nat, b.length = buf.length →
      ∃ j, ∃ hj : j < rs.length, j < k ∧
        entryAt (mmapReaderAt (storeBytes rs)) (i : Int) b =
          .ret ((rs.get ⟨j, hj⟩).key, trimSpace (rs.get ⟨j, hj⟩).count, none)) := by
  obtain ⟨st, hst, _⟩ := search_eq_ret h
  have hne : rs ≠ [] := by
    intro hnil
    subst hnil
    simp at hk
  obtain ⟨k1, hk1, hge1, hfirst1, hle1, hleast1, _⟩ :=
    searchRun_finds_first_ge hwf hs hmax hsz hbuf hne hst
  have hkk : k1 = k := by
    rcases Nat.lt_trichotomy k1 k with hlt | heq | hgt
    · exact (not_lt_and_ge (hfirst k1 hk1 hlt) hge1).elim
    · exact heq
    · exact (not_lt_and_ge (hfirst1 k hk hgt) hge).elim
  subst hkk
  obtain ⟨_, _, hA, _⟩ := searchRun_ret_facts hwf hmax hsz hbuf hst
  have hup : 0 < k1 → t ≤ startOff rs (k1 - 1) + 1 := by
    intro hpos
    rcases hA with h0 | ⟨k2, hk2, _, hle2, hlt2⟩
    · omega
    · have hk21 : k2 < k1 := by
        by_contra hc
        exact not_lt_and_ge (key_lt_of_le hs hk hk2 (by omega) hlt2) hge
      have := startOff_mono rs (show k2 ≤ k1 - 1 by omega)
      omega
  refine ⟨?_, ?_, ?_, ?_⟩
  · intro h0
    subst h0
    rw [startOff_zero] at hle1
    omega
  · intro hpos
    have := hleast1 (k1 - 1) (by omega)
    have := hup hpos
    omega
  · intro b hb
    exact entryAt_locates hwf hmax b (by omega) hk hle1 hleast1
  · intro i hi b hb
    have hpos : 0 < k1 := by
      by_contra hc
      have h0 : k1 = 0 := by omega
      subst h0
      rw [startOff_zero] at hle1
      omega
    have hile : i ≤ startOff rs (k1 - 1) := by
      have := hup hpos
      omega
    obtain ⟨j, _, hj1, hj2⟩ := exists_first_at_or_after rs
      (le_trans hile (startOff_le_size rs _))
    have hjk : j ≤ k1 - 1 := by
      by_contra hc
      have := hj2 (k1 - 1) (by omega)
      omega
    exact ⟨j, by omega, by omega, entryAt_locates hwf hmax b (by omega) (by omega) hj1 hj2⟩

set_option maxRecDepth 100000 in
/-- C19 at the fixture: the second record is the first whose key is at or above
`00000000A8DAE4228F821FB418F59826079BF368`, the first record starts at 0, and the search
returns offset 1. -/
theorem C19_search_exact_offset_witness :
    search (storeBytes fixtureRecs).length (mmapReaderAt (storeBytes fixtureRecs)) buf128 keyA8 =
      .ret (1, none) ∧
    (0 < 1 → 1 = startOff fixtureRecs (1 - 1) + 1) :=
  ⟨by decide!,
    (C19_search_exact_offset fixtureRecs 64 buf128 keyA8 1 none 1 (by decide) (by decide!)
      (by decide!) (by decide!) (by decide!) (by decide!) (by decide!) (by decide!)
      (by intro j hj hj1
          have hj0 : j = 0 := by omega
          subst hj0
          have h0 : bytesCompare (fixtureRecs.get ⟨0, by decide⟩).key keyA8 < 0 := by decide!
          exact h0)).2.1⟩

/-- C20. Over a non-empty mapped file, whatever its bytes, a reader that never fails: if
`search` returns the offset `t`, then `t` is below the file size, no error is returned,
`t` is one of the offsets that the search probed, and `entryAt` at `t` succeeds, whatever
the buffer of that length holds, with a key at or above the query; so the re-location
at the returned offset, made by `checkPasswords` with the buffer that the search has
left, does not panic. -/
theorem C20_returned_offset_was_probed (data buf query : List Nat) (t : Nat) (e : Option Error)
    (hne : data ≠ []) (hsz : data.length < 2 ^ 63)
    (h : search data.length (mmapReaderAt data) buf query = .ret (t, e)) :
    t < data.length ∧ e = none ∧
    t ∈ probeOffsets data.length (mmapReaderAt data) buf query ∧
    ∃ hash cnt, bytesCompare query hash ≤ 0 ∧
      (∀ b : List Nat, b.length = buf.length →
        entryAt (mmapReaderAt data) (t : Int) b = .ret (hash, cnt, none)) ∧
      (∀ st, searchRun data.length (mmapReaderAt data) buf query = .ret (t, st) →
        entryAt (mmapReaderAt data) (t : Int) st.buf = .ret (hash, cnt, none)) := by
  obtain ⟨st, hst, hre⟩ := search_eq_ret h
  have hrun := hst
  unfold searchRun sortSearch at hst
  have hpos : 0 < data.length := List.length_pos.2 hne
  obtain ⟨hA, hB⟩ := searchLoop_ret_calls (searchProbe (mmapReaderAt data) query) data.length 0
    data.length _ t st (Nat.zero_le _) hsz (by omega) hst
  have hcalls : ∀ c, c ∈ searchCalls (searchProbe (mmapReaderAt data) query) data.length 0
      data.length { reterr := none, buf := buf } → c.1 < data.length ∧ c.2.buf.length = buf.length :=
    fun c hc => ⟨(searchCalls_offsets _ _ _ _ _ hsz c hc).2,
      searchCalls_inv _ (fun s => s.buf.length = buf.length)
        (fun s x b s1 hs hp => (searchProbe_buf hp).trans hs) _ _ _ _ rfl c hc⟩
  have hlast : ∀ s : SearchState,
      searchProbe (mmapReaderAt data) query s (data.length - 1) = .panic .sliceBounds :=
    fun s => searchProbe_panic (fun b => entryAt_last_byte hne b) query s
  have hnone : e = none := by
    rw [← hre]
    by_contra hc
    rcases (searchLoop_reterr _ _ _ _ _ _ _ _ hst).1 hc with h0 | ⟨c, hc1, hash, cnt, e1, he1⟩
    · exact h0 rfl
    · have := entryAt_mmap_err (le_of_lt (hcalls c hc1).1) he1
      simp at this
  rcases hB with hB | ⟨s0, s1, hmem, hp⟩
  · exfalso
    rcases hA with hA | ⟨s0, s1, _, _, hp⟩
    · omega
    · rw [hB, hlast s0] at hp
      simp at hp
  · obtain ⟨hlt, hlen⟩ := hcalls _ hmem
    obtain ⟨hash, cnt, err, he, hb, _⟩ := searchProbe_ret hp
    have herr := entryAt_mmap_err (le_of_lt hlt) he
    subst herr
    refine ⟨hlt, hnone, ?_, hash, cnt, of_decide_eq_true hb.symm, ?_, ?_⟩
    · unfold probeOffsets searchProbes
      exact List.mem_map.2 ⟨_, hmem, rfl⟩
    · intro b hbl
      rw [entryAt_buf_indep _ _ (hbl.trans hlen.symm)]
      exact he
    · intro st' hst'
      have hl := searchLoop_buf_length _ _ _ _ _ _ _ _ (by
        unfold searchRun sortSearch at hst'
        exact hst')
      rw [entryAt_buf_indep _ _ (hl.trans hlen.symm)]
      exact he

set_option maxRecDepth 100000 in
/-- C20 at the fixture: the search for the second key returns offset 1, which is below
131 and among the probed offsets. -/
theorem C20_returned_offset_was_probed_witness :
    search fixture.length (mmapReaderAt fixture) buf128 keyA8 = .ret (1, none) ∧
    1 < fixture.length ∧
    1 ∈ probeOffsets fixture.length (mmapReaderAt fixture) buf128 keyA8 :=
  ⟨by decide!,
    (C20_returned_offset_was_probed fixture buf128 keyA8 1 none (by decide!) (by decide!)
      (by decide!)).1,
    (C20_returned_offset_was_probed fixture buf128 keyA8 1 none (by decide!) (by decide!)
      (by decide!)).2.2.1⟩

/-! ## `bytes.TrimSpace` on ASCII fields -/

theorem isSpace_ascii {b : Nat} (h : b < 128) : isSpace b = asciiSpace b := by
  interval_cases b <;> rfl

theorem getD_ascii {s : List Nat} (h : ∀ b, b ∈ s → b < 128) (n : Nat) : s.getD n 0 < 128 := by
  by_cases hn : n < s.length
  · rw [List.getD_eq_getElem _ _ hn]
    exact h _ (List.getElem_mem _)
  · rw [List.getD_eq_default _ _ (by omega)]
    norm_num

/-- On ASCII bytes the forward scan of `TrimLeftFunc` finds the first byte from `start`
on that is no white space. -/
theorem indexNotSpace_ascii {s : List Nat} (h : ∀ b, b ∈ s → b < 128) :
    ∀ (fuel start : Nat), s.length ≤ start + fuel →
      indexNotSpace s fuel start =
        if (s.drop start).dropWhile asciiSpace = [] then -1
        else ((start + ((s.drop start).takeWhile asciiSpace).length : Nat) : Int) := by
  intro fuel
  induction fuel with
  | zero =>
    intro start hs
    rw [List.drop_of_length_le (by omega)]
    simp [indexNotSpace]
  | succ n ih =>
    intro start hs
    rw [indexNotSpace]
    cases hd : s.drop start with
    | nil => simp
    | cons b rest =>
      have hb : b < 128 := h b (List.mem_of_mem_drop (hd ▸ List.mem_cons_self b rest))
      have hrest : s.drop (start + 1) = rest := by
        rw [← List.drop_drop, hd]
        rfl
      have hns : ¬ runeSelf ≤ b := by unfold runeSelf; omega
      simp only [if_neg hns, isSpace_ascii hb]
      by_cases hsp : asciiSpace b = true
      · rw [if_pos hsp, ih (start + 1) (by omega), hrest, List.dropWhile_cons_of_pos hsp,
          List.takeWhile_cons_of_pos hsp]
        simp only [List.length_cons]
        split
        · rfl
        · congr 1
          omega
      · rw [if_neg hsp, List.dropWhile_cons_of_neg hsp, List.takeWhile_cons_of_neg hsp]
        simp

theorem trimLeftSpace_ascii {s : List Nat} (h : ∀ b, b ∈ s → b < 128) :
    trimLeftSpace s = s.dropWhile asciiSpace := by
  unfold trimLeftSpace
  simp only [indexNotSpace_ascii h s.length 0 (by omega), List.drop_zero]
  by_cases hnil : s.dropWhile asciiSpace = []
  · simp [hnil]
  · rw [if_neg hnil, if_neg (by omega)]
    simp only [Nat.zero_add, Int.toNat_ofNat]
    have key : ∀ a b : List Nat, a ++ b = s → s.drop a.length = b := by
      intro a b hab
      rw [← hab]
      exact List.drop_left _ _
    exact key _ _ (List.takeWhile_append_dropWhile asciiSpace s)

/-- On ASCII bytes the backward scan of `TrimRightFunc` cuts the white space that ends
the first `i` bytes. -/
theorem lastIndexNotSpace_ascii {s : List Nat} (h : ∀ b, b ∈ s → b < 128) :
    ∀ (fuel i : Nat), i ≤ fuel → i ≤ s.length →
      -1 ≤ lastIndexNotSpace s fuel i ∧
      s.take (lastIndexNotSpace s fuel i + 1).toNat = (s.take i).rdropWhile asciiSpace := by
  intro fuel
  induction fuel with
  | zero =>
    intro i hi _
    have : i = 0 := by omega
    subst this
    simp [lastIndexNotSpace, List.rdropWhile_nil]
  | succ n ih =>
    intro i hi hil
    rw [lastIndexNotSpace]
    by_cases hpos : 0 < i
    · have hlt : i - 1 < s.length := by omega
      have hb : s.getD (i - 1) 0 < 128 := getD_ascii h _
      have hns : ¬ runeSelf ≤ s.getD (i - 1) 0 := by unfold runeSelf; omega
      have htake : s.take i = s.take (i - 1) ++ [s.getD (i - 1) 0] := by
        have h1 : i = (i - 1) + 1 := by omega
        conv_lhs => rw [h1, List.take_succ]
        rw [List.getD_eq_getElem _ _ hlt, List.getElem?_eq_getElem hlt]
        rfl
      simp only [if_pos hpos, if_neg hns, isSpace_ascii hb]
      by_cases hsp : asciiSpace (s.getD (i - 1) 0) = true
      · rw [if_pos hsp, htake, List.rdropWhile_concat_pos _ _ _ hsp]
        exact ih (i - 1) (by omega) (by omega)
      · rw [if_neg hsp, htake, List.rdropWhile_concat_neg _ _ _ hsp, ← htake]
        refine ⟨by omega, ?_⟩
        congr 1
        omega
    · have : i = 0 := by omega
      subst this
      simp [List.rdropWhile_nil]

theorem trimRightSpace_ascii {s : List Nat} (h : ∀ b, b ∈ s → b < 128) :
    trimRightSpace s = s.rdropWhile asciiSpace := by
  unfold trimRightSpace
  have hns : ∀ n, ¬ runeSelf ≤ s.getD n 0 := by
    intro n
    have := getD_ascii h n
    unfold runeSelf
    omega
  simp only [hns, and_false, if_false]
  rw [(lastIndexNotSpace_ascii h s.length s.length (le_refl _) (le_refl _)).2, List.take_length]

/-- On a field of ASCII bytes `bytes.TrimSpace` drops the leading and the trailing white
space bytes and keeps what lies between. -/
theorem trimSpace_ascii {s : List Nat} (h : ∀ b, b ∈ s → b < 128) :
    trimSpace s = trimBlanks s := by
  unfold trimSpace trimBlanks
  rw [trimLeftSpace_ascii h]
  exact trimRightSpace_ascii (fun b hb => h b ((List.dropWhile_sublist _).subset hb))

/-! ## The lookup loop over a batch -/

/-- The result of the lookup loop depends on the buffer through its length only. -/
theorem lookupLoop_buf_indep (size : Nat) (r : ReaderAt) :
    ∀ (l : List (List Nat × String)) (buf buf' : List Nat) (m : ResultMap),
      buf.length = buf'.length → lookupLoop size r l buf m = lookupLoop size r l buf' m := by
  intro l
  induction l with
  | nil => intro buf buf' m _; rfl
  | cons x rest ih =>
    intro buf buf' m hlen
    obtain ⟨h, pw⟩ := x
    rw [lookupLoop, lookupLoop]
    unfold searchRun sortSearch
    rcases searchLoop_indep r h size 0 size { reterr := none, buf := buf }
        { reterr := none, buf := buf' } rfl hlen with
      ⟨p, h1, h2⟩ | ⟨t, st, st', h1, h2, hre, hbl⟩
    · rw [h1, h2]
    · rw [h1, h2]
      simp only
      rw [hre, entryAt_buf_indep r (t : Int) hbl]
      have hafter : (bufferAfter r (t : Int) st.buf).length =
          (bufferAfter r (t : Int) st'.buf).length := by
        rw [bufferAfter_length, bufferAfter_length, hbl]
      cases st'.reterr with
      | some e => rfl
      | none =>
        simp only
        cases entryAt r (t : Int) st'.buf with
        | panic p => rfl
        | ret a =>
          obtain ⟨hash, cnt, err⟩ := a
          cases err with
          | some e => rfl
          | none =>
            simp only
            by_cases heq : bytesEqual hash h = true
            · simp only [heq, if_true]
              cases Atoi cnt with
              | error e => rfl
              | ok v => exact ih _ _ _ hafter
            · simp only [heq, if_false]
              exact ih _ _ _ hafter

theorem search_eq_panic {size : Nat} {r : ReaderAt} {buf query : List Nat} {p : Panic}
    (h : search size r buf query = .panic p) : searchRun size r buf query = .panic p := by
  unfold search at h
  cases hr : searchRun size r buf query with
  | panic q =>
    rw [hr] at h
    simpa using h
  | ret x => rw [hr] at h; simp at h

/-- One lookup whose search ends without error at an offset where `entryAt` yields the
queried key: the loop parses the count, stops with the error of `strconv.Atoi` or
stores the value and goes on with the rest of the batch. -/
theorem lookupLoop_step_found {size : Nat} {r : ReaderAt} {buf h count : List Nat} {i : Nat}
    (hs : search size r buf h = .ret (i, none))
    (he : entryAt r (i : Int) buf = .ret (h, count, none)) (pw : String)
    (rest : List (List Nat × String)) (m : ResultMap) :
    lookupLoop size r ((h, pw) :: rest) buf m =
      match Atoi count with
      | .error e => .ret (.error e)
      | .ok v => lookupLoop size r rest buf (m.set pw v) := by
  obtain ⟨st, hst, hre⟩ := search_eq_ret hs
  have hbl : st.buf.length = buf.length := by
    have := hst
    unfold searchRun sortSearch at this
    exact searchLoop_buf_length _ _ _ _ _ _ _ _ this
  rw [lookupLoop]
  simp only [hst, hre, entryAt_buf_indep r (i : Int) hbl, he, bytesEqual, decide_True, if_true]
  cases Atoi count with
  | error e => rfl
  | ok v =>
    simp only
    exact lookupLoop_buf_indep size r rest _ _ _ ((bufferAfter_length _ _ _).trans hbl)

/-- What one turn of the lookup loop does is the same whatever follows in the batch and
whatever the map holds: it panics, it returns an error, or it goes on with the rest
after leaving the map as it is or setting the label of the turn. -/
theorem lookupLoop_turn (size : Nat) (r : ReaderAt) (h : List Nat) (pw : String)
    (buf : List Nat) :
    (∃ p, ∀ rest m, lookupLoop size r ((h, pw) :: rest) buf m = .panic p) ∨
    (∃ e, ∀ rest m, lookupLoop size r ((h, pw) :: rest) buf m = .ret (.error e)) ∨
    (∀ rest m, lookupLoop size r ((h, pw) :: rest) buf m = lookupLoop size r rest buf m) ∨
    (∃ v, ∀ rest m, lookupLoop size r ((h, pw) :: rest) buf m =
      lookupLoop size r rest buf (m.set pw v)) := by
  cases hrun : searchRun size r buf h with
  | panic p =>
    refine Or.inl ⟨p, fun rest m => ?_⟩
    rw [lookupLoop]
    simp only [hrun]
  | ret x =>
    obtain ⟨t, st⟩ := x
    have hbl : st.buf.length = buf.length := by
      have := hrun
      unfold searchRun sortSearch at this
      exact searchLoop_buf_length _ _ _ _ _ _ _ _ this
    have hafter : (bufferAfter r (t : Int) st.buf).length = buf.length :=
      (bufferAfter_length _ _ _).trans hbl
    cases hre : st.reterr with
    | some e =>
      refine Or.inr (Or.inl ⟨e, fun rest m => ?_⟩)
      rw [lookupLoop]
      simp only [hrun, hre]
    | none =>
      cases hent : entryAt r (t : Int) st.buf with
      | panic p =>
        refine Or.inl ⟨p, fun rest m => ?_⟩
        rw [lookupLoop]
        simp only [hrun, hre, hent]
      | ret a =>
        obtain ⟨hash, cnt, err⟩ := a
        cases err with
        | some e =>
          refine Or.inr (Or.inl ⟨e, fun rest m => ?_⟩)
          rw [lookupLoop]
          simp only [hrun, hre, hent]
        | none =>
          by_cases heq : bytesEqual hash h = true
          · cases hat : Atoi cnt with
            | error e =>
              refine Or.inr (Or.inl ⟨e, fun rest m => ?_⟩)
              rw [lookupLoop]
              simp only [hrun, hre, hent, heq, if_true, hat]
            | ok v =>
              refine Or.inr (Or.inr (Or.inr ⟨v, fun rest m => ?_⟩))
              rw [lookupLoop]
              simp only [hrun, hre, hent, heq, if_true, hat]
              exact lookupLoop_buf_indep size r rest _ _ _ hafter
          · refine Or.inr (Or.inr (Or.inl (fun rest m => ?_)))
            rw [lookupLoop]
            simp only [hrun, hre, hent, heq, if_false]
            exact lookupLoop_buf_indep size r rest _ _ _ hafter

/-- The lookup loop over a batch in two parts: the second part runs on the map that the
first part has built, unless the first part panics or returns an error. -/
theorem lookupLoop_append (size : Nat) (r : ReaderAt) (post : List (List Nat × String)) :
    ∀ (pre : List (List Nat × String)) (buf : List Nat) (m : ResultMap),
      lookupLoop size r (pre ++ post) buf m =
        match lookupLoop size r pre buf m with
        | .panic p => .panic p
        | .ret (.error e) => .ret (.error e)
        | .ret (.ok m1) => lookupLoop size r post buf m1 := by
  intro pre
  induction pre with
  | nil => intro buf m; rfl
  | cons x pre ih =>
    intro buf m
    obtain ⟨h, pw⟩ := x
    rw [List.cons_append]
    rcases lookupLoop_turn size r h pw buf with ⟨p, hp⟩ | ⟨e, he⟩ | hskip | ⟨v, hv⟩
    · rw [hp, hp]
    · rw [he, he]
    · rw [hskip, hskip]
      exact ih buf m
    · rw [hv, hv]
      exact ih buf _

theorem lookup_set_self (m : ResultMap) (pw : String) (v : Int) :
    (m.set pw v).lookup pw = some v := by
  unfold ResultMap.set
  exact List.lookup_cons_self

theorem lookup_set_ne (m : ResultMap) {pw pw' : String} (v : Int) (h : pw' ≠ pw) :
    (m.set pw' v).lookup pw = m.lookup pw := by
  unfold ResultMap.set
  have hbeq : (pw == pw') = false := by simpa using fun heq => h heq.symm
  rw [List.lookup_cons, hbeq]
  simp only
  induction m with
  | nil => rfl
  | cons a m ih =>
    obtain ⟨a1, a2⟩ := a
    by_cases ha : a1 = pw'
    · subst ha
      rw [List.filter_cons_of_neg (by simp), ih, List.lookup_cons, hbeq]
    · rw [List.filter_cons_of_pos (by simpa using ha), List.lookup_cons, List.lookup_cons, ih]

/-- The lookups of other labels leave the count stored for a label as it is. -/
theorem lookupLoop_keeps (size : Nat) (r : ReaderAt) (pw : String) :
    ∀ (l : List (List Nat × String)) (buf : List Nat) (m mf : ResultMap),
      pw ∉ l.map Prod.snd → lookupLoop size r l buf m = .ret (.ok mf) →
      mf.lookup pw = m.lookup pw := by
  intro l
  induction l with
  | nil =>
    intro buf m mf _ h
    simp only [lookupLoop, Outcome.ret.injEq, Except.ok.injEq] at h
    rw [h]
  | cons x rest ih =>
    intro buf m mf hpw h
    obtain ⟨h1, pw1⟩ := x
    simp only [List.map_cons, List.mem_cons, not_or] at hpw
    rcases lookupLoop_turn size r h1 pw1 buf with ⟨p, hp⟩ | ⟨e, he⟩ | hskip | ⟨v, hv⟩
    · rw [hp] at h; simp at h
    · rw [he] at h; simp at h
    · rw [hskip] at h
      exact ih buf m mf hpw.2 h
    · rw [hv] at h
      rw [ih buf _ mf hpw.2 h]
      exact lookup_set_ne m v (fun heq => hpw.1 heq.symm)

/-! ## Trimming a count field that is surrounded by white space -/

theorem dropWhile_prefix_all {p : Nat → Bool} : ∀ (pre l : List Nat),
    (∀ b, b ∈ pre → p b = true) → (∀ c, l.head? = some c → p c = false) →
    (pre ++ l).dropWhile p = l
  | [], l, _, hl => by
    cases l with
    | nil => rfl
    | cons c t =>
      rw [List.nil_append, List.dropWhile_cons_of_neg]
      rw [hl c rfl]
      simp
  | b :: pre, l, hpre, hl => by
    rw [List.cons_append, List.dropWhile_cons_of_pos (hpre b (List.mem_cons_self _ _))]
    exact dropWhile_prefix_all pre l (fun x hx => hpre x (List.mem_cons_of_mem _ hx)) hl

theorem rdropWhile_suffix_all {p : Nat → Bool} (l post : List Nat)
    (hpost : ∀ b, b ∈ post → p b = true) (hl : ∀ z, l.getLast? = some z → p z = false) :
    (l ++ post).rdropWhile p = l := by
  unfold List.rdropWhile
  rw [List.reverse_append, dropWhile_prefix_all post.reverse l.reverse
    (fun b hb => hpost b (List.mem_reverse.1 hb))
    (fun c hc => hl c (by rw [← List.head?_reverse]; exact hc)), List.reverse_reverse]

theorem asciiSpace_lt {b : Nat} (h : asciiSpace b = true) : b < 128 := by
  simp only [asciiSpace, Bool.or_eq_true, beq_iff_eq] at h
  omega

/-- A field that is white space, a core that neither starts nor ends with white space,
and white space again is trimmed to its core. -/
theorem trimBlanks_surround (pre core post : List Nat)
    (hpre : ∀ b, b ∈ pre → asciiSpace b = true) (hpost : ∀ b, b ∈ post → asciiSpace b = true)
    (hhead : ∀ c, core.head? = some c → asciiSpace c = false)
    (hlast : ∀ z, core.getLast? = some z → asciiSpace z = false) :
    trimBlanks (pre ++ core ++ post) = core := by
  unfold trimBlanks
  cases core with
  | nil =>
    rw [List.append_nil]
    have h0 : (pre ++ post).dropWhile asciiSpace = [] := by
      have := dropWhile_prefix_all (p := asciiSpace) (pre ++ post) []
        (fun b hb => by
          rcases List.mem_append.1 hb with h | h
          · exact hpre b h
          · exact hpost b h)
        (fun c hc => by simp at hc)
      simpa using this
    rw [h0, List.rdropWhile_nil]
  | cons c t =>
    rw [List.append_assoc, dropWhile_prefix_all pre ((c :: t) ++ post) hpre
      (fun x hx => hhead x (by simpa using hx))]
    exact rdropWhile_suffix_all (c :: t) post hpost hlast

/-- C6. Over a well-formed store whose lines are each at most half the buffer, `entryAt`
at an offset `i` returns, without error, the key (40 bytes) and the trimmed count of the
first record that starts at or after `i` (record `k`, every earlier record starting
before `i`): the record at `i` when `i` is a record start, the next one otherwise. The
count returned is the count field after `bytes.TrimSpace`; for a field of ASCII bytes
that is the field without its leading and trailing white space bytes, so a field made
of white space, a core that neither starts nor ends with white space, and white space
again is returned as its core. -/
theorem C6_entryAt_first_record_at_or_after (rs : List Rec) (buf : List Nat) (i k : Nat)
    (hwf : WellFormed rs) (hmax : MaxLine (buf.length / 2) rs) (hk : k < rs.length)
    (hle : i ≤ startOff rs k) (hleast : ∀ j, j < k → startOff rs j < i) :
    i < (storeBytes rs).length ∧ (rs.get ⟨k, hk⟩).key.length = 40 ∧
    entryAt (mmapReaderAt (storeBytes rs)) (i : Int) buf =
      .ret ((rs.get ⟨k, hk⟩).key, trimSpace (rs.get ⟨k, hk⟩).count, none) ∧
    ((∀ b, b ∈ (rs.get ⟨k, hk⟩).count → b < 128) →
      entryAt (mmapReaderAt (storeBytes rs)) (i : Int) buf =
        .ret ((rs.get ⟨k, hk⟩).key, trimBlanks (rs.get ⟨k, hk⟩).count, none)) ∧
    (∀ pre core post : List Nat, (rs.get ⟨k, hk⟩).count = pre ++ core ++ post →
      (∀ b, b ∈ pre → asciiSpace b = true) → (∀ b, b ∈ post → asciiSpace b = true) →
      (∀ b, b ∈ core → b < 128) → (∀ c, core.head? = some c → asciiSpace c = false) →
      (∀ z, core.getLast? = some z → asciiSpace z = false) →
      entryAt (mmapReaderAt (storeBytes rs)) (i : Int) buf =
        .ret ((rs.get ⟨k, hk⟩).key, core, none)) := by
  have hentry := entryAt_locates hwf hmax buf (by omega) hk hle hleast
  refine ⟨?_, (hwf _ (List.get_mem rs k hk)).1, hentry, ?_, ?_⟩
  · have := startOff_add_two_le hk
    omega
  · intro hascii
    rw [hentry, trimSpace_ascii hascii]
  · intro pre core post hcount hpre hpost hcore hhead hlast
    have hascii : ∀ b, b ∈ (rs.get ⟨k, hk⟩).count → b < 128 := by
      intro b hb
      rw [hcount] at hb
      rcases List.mem_append.1 hb with h | h
      · rcases List.mem_append.1 h with h | h
        · exact asciiSpace_lt (hpre b h)
        · exact hcore b h
      · exact asciiSpace_lt (hpost b h)
    rw [hentry, trimSpace_ascii hascii, hcount,
      trimBlanks_surround pre core post hpre hpost hhead hlast]

set_option maxRecDepth 100000 in
/-- C6 at the fixture with lines ending in carriage return and line feed: the probe right
after the colon of the first line, offset 41, yields the second record, whose count field
is a blank, `2`, a blank and a carriage return, with the count `2`. -/
theorem C6_entryAt_first_record_at_or_after_witness :
    startOff crlfRecs 0 = 0 ∧ startOff crlfRecs 1 = 44 ∧
    (crlfRecs.get ⟨1, by decide⟩).count = [32, 50, 32, 13] ∧
    entryAt (mmapReaderAt (storeBytes crlfRecs)) ((41 : Nat) : Int) buf128 =
      .ret ((crlfRecs.get ⟨1, by decide⟩).key, [50], none) :=
  ⟨by decide!, by decide!, by decide!,
    (C6_entryAt_first_record_at_or_after crlfRecs buf128 41 1 (by decide!) (by decide!)
      (by decide) (by decide!)
      (by intro j hj
          have hj0 : j = 0 := by omega
          subst hj0
          decide!)).2.2.2.2 [32] [50] [32, 13] (by decide!) (by decide) (by decide) (by decide)
        (by decide) (by decide)⟩

/-! ## The count of a matching record, anywhere in the batch -/

theorem checkPasswords_ok {data : List Nat} {closeErr e : Option Error}
    {l : List (List Nat × String)} {mf : ResultMap}
    (h : checkPasswords none none data closeErr l = .ret (some mf, e)) :
    lookupLoop data.length (mmapReaderAt data) l buf128 [] = .ret (.ok mf) := by
  unfold checkPasswords at h
  simp only at h
  cases hl : lookupLoop data.length (mmapReaderAt data) l buf128 [] with
  | panic p => rw [hl] at h; simp at h
  | ret x =>
    rw [hl] at h
    cases x with
    | error e1 => simp at h
    | ok m =>
      simp only [Outcome.ret.injEq, Prod.mk.injEq, Option.some.injEq] at h
      rw [h.1]

/-- C10, amended. For a lookup at any position of the batch, the earlier lookups having
succeeded with the map `mPre`: when the search for the query key ends, without error, at
an offset where `entryAt` yields a record with that key and the trimmed count field
`count` (the contents of the buffer do not matter to either), `checkPasswords` stores a
count for the label exactly when `count` is an optionally signed decimal integer within
the range of a 64-bit `int`, the stored value is that integer, and the later lookups of
other labels leave it as it is; for any other count field `checkPasswords` returns a
non-nil error and no result map, whatever the map held and whatever follows in the
batch. -/
theorem C10_count_parsed_as_signed_int (data h count : List Nat) (pw : String)
    (pre rest : List (List Nat × String)) (closeErr : Option Error) (i : Nat)
    (mPre : ResultMap)
    (hpre : lookupLoop data.length (mmapReaderAt data) pre buf128 [] = .ret (.ok mPre))
    (hsearch : search data.length (mmapReaderAt data) buf128 h = .ret (i, none))
    (hentry : entryAt (mmapReaderAt data) (i : Int) buf128 = .ret (h, count, none)) :
    (∀ v, signedDecimal count = some v →
      lookupLoop data.length (mmapReaderAt data) (pre ++ (h, pw) :: rest) buf128 [] =
        lookupLoop data.length (mmapReaderAt data) rest buf128 (mPre.set pw v) ∧
      (mPre.set pw v).lookup pw = some v ∧
      checkPasswords none none data closeErr (pre ++ [(h, pw)]) =
        .ret (some (mPre.set pw v), closeErr) ∧
      (∀ (mf : ResultMap) (e : Option Error), pw ∉ rest.map Prod.snd →
        checkPasswords none none data closeErr (pre ++ (h, pw) :: rest) = .ret (some mf, e) →
        mf.lookup pw = some v)) ∧
    (signedDecimal count = none →
      ∃ e, checkPasswords none none data closeErr (pre ++ (h, pw) :: rest) =
        .ret (none, some e)) := by
  have hloop : ∀ tail : List (List Nat × String),
      lookupLoop data.length (mmapReaderAt data) (pre ++ (h, pw) :: tail) buf128 [] =
        match Atoi count with
        | .error e => .ret (.error e)
        | .ok v => lookupLoop data.length (mmapReaderAt data) tail buf128 (mPre.set pw v) := by
    intro tail
    rw [lookupLoop_append, hpre]
    exact lookupLoop_step_found hsearch hentry pw tail mPre
  constructor
  · intro v hv
    have hat := (Atoi_spec count).1 v hv
    have hl : ∀ tail : List (List Nat × String),
        lookupLoop data.length (mmapReaderAt data) (pre ++ (h, pw) :: tail) buf128 [] =
          lookupLoop data.length (mmapReaderAt data) tail buf128 (mPre.set pw v) := by
      intro tail
      rw [hloop tail, hat]
    refine ⟨hl rest, lookup_set_self mPre pw v, ?_, ?_⟩
    · have h1 := hl []
      rw [lookupLoop] at h1
      simp only [checkPasswords, h1]
    · intro mf e hpw hcp
      have h1 := checkPasswords_ok hcp
      rw [hl rest] at h1
      rw [lookupLoop_keeps _ _ pw rest buf128 _ mf hpw h1]
      exact lookup_set_self mPre pw v
  · intro hnone
    obtain ⟨e, he⟩ := (Atoi_spec count).2 hnone
    have h1 := hloop rest
    rw [he] at h1
    exact ⟨e, by simp only [checkPasswords, h1]⟩

set_option maxRecDepth 100000 in
/-- The amended C10 at the second position of a batch. On the store whose first count is
`9223372036854775808`, the lookup of the second key succeeds with the count 2, the lookup
of the first key then finds a count beyond the range of `int`, and `checkPasswords`
returns an error and no map. On the three-record fixture, after the lookup of the first
key with the count 4, the lookup of the second key stores 2. -/
theorem C10_count_parsed_as_signed_int_witness :
    lookupLoop bigStore.length (mmapReaderAt bigStore) [(keyA8, "b")] buf128 [] =
      .ret (.ok [("b", 2)]) ∧
    signedDecimal (asciiBytes "9223372036854775808") = none ∧
    (∃ e, checkPasswords none none bigStore none ([(keyA8, "b")] ++ (key5A, "a") :: []) =
      .ret (none, some e)) ∧
    checkPasswords none none fixture none ([(key5A, "a")] ++ [(keyA8, "b")]) =
      .ret (some (ResultMap.set [("a", 4)] "b" 2), none) :=
  ⟨by decide!, by decide!,
    (C10_count_parsed_as_signed_int bigStore key5A (asciiBytes "9223372036854775808") "a"
      [(keyA8, "b")] [] none 0 [("b", 2)] (by decide!) (by decide!) (by decide!)).2
        (by decide!),
    ((C10_count_parsed_as_signed_int fixture keyA8 (asciiBytes "2") "b"
      [(key5A, "a")] [] none 1 [("a", 4)] (by decide!) (by decide!) (by decide!)).1 2
        (by decide!)).2.2.1⟩

set_option maxRecDepth 100000 in
/-- C12, as a defect of the code. The claim asks that `search` returns a non-nil error
whenever one of its probes' calls of `entryAt` returned one. With a reader over the
three-record fixture whose read at offset 65 fails, the search for
`FFFFFFFFFFFFFFFFFFFFFFFFFFFFFFFFFFFFFFFF` probes offset 65, where `entryAt` returns the
error of the read, then offset 98, inside the last record, where `entryAt` panics at
`line[:-1]`: the search returns nothing, and the error of the probe is surfaced neither
by `search` nor by the lookup loop. -/
theorem C12_probe_error_lost_in_panic :
    (flakyReader65 128 65).2 = some (Error.io 5) ∧
    entryAt flakyReader65 65 buf128 = .ret ([], [], some (Error.io 5)) ∧
    probeOffsets 131 flakyReader65 buf128 keyFF = [65, 98] ∧
    entryAt flakyReader65 98 buf128 = .panic .sliceBounds ∧
    search 131 flakyReader65 buf128 keyFF = .panic .sliceBounds ∧
    lookupLoop 131 flakyReader65 [(keyFF, "pw")] buf128 [] = .panic .sliceBounds :=
  ⟨by decide!, by decide!, by decide!, by decide!, by decide!, by decide!⟩

end CheckPassword
